import Mathlib

/-!
# Verification of the METIS analytic core

A shallow embedding, in Lean 4, of the analytic core of the METIS
marketing-mix modeling tool (repository `Saverio3/METIS`, directory
`backend/src/`), together with theorems settling the frozen claims about it.

Conventions of the embedding:

* Python/numpy floating point numbers are idealized as exact rationals `ℚ`.
  An exact equality over `ℚ` is in particular an equality "within
  floating tolerance".
* A pandas `Series` over the model's time index is a function `ℕ → ℚ`;
  only indices `t < n` (with `n` the number of observations) are meaningful.
* Python dicts are association lists `List (String × α)`; Python dict
  semantics (insertion order iteration, first-key lookup, in-place update,
  append on fresh key) are mirrored by the `findVal` / `upsert` / `addEntry`
  / `eraseKey` operations below.
* The ordinary-least-squares solver (`statsmodels.api.OLS`, an external
  library, the spec's `OLSEngine`) is a parameter `ols` of every operation
  that fits a model; it returns `none` when fitting raises (singular design
  and similar numerical failures).  A concrete instance `olsSpec`, modelled
  from the spec, is provided for intercept-only and single-regressor
  designs.
* Squared t-statistics are used instead of t-statistics so that every fit
  statistic stays inside `ℚ` (comparing `|t|` values is equivalent to
  comparing their squares); p-values, which are a monotone transform of
  `|t|` not needed by any claim, are not modelled.
-/

namespace Metis

/-- A time series over the model's (integer) time index. -/
abbrev Series : Type := ℕ → ℚ

/-- A named collection of series (the columns of a pandas DataFrame, or a
dict of series), as an association list in insertion order. -/
abbrev SeriesMap : Type := List (String × Series)

/-! ## Association-list operations mirroring Python dict semantics -/

/-- Python dict lookup `l[k]` (first matching key). -/
def findVal {α : Type} : List (String × α) → String → Option α
  | [], _ => none
  | (k2, v) :: rest, k => if k2 = k then some v else findVal rest k

/-- Python `k in l`. -/
def hasKey {α : Type} (l : List (String × α)) (k : String) : Bool :=
  (findVal l k).isSome

/-- Python `del l[k]` (removes the first matching entry). -/
def eraseKey {α : Type} : List (String × α) → String → List (String × α)
  | [], _ => []
  | (k2, v) :: rest, k => if k2 = k then rest else (k2, v) :: eraseKey rest k

/-- Python dict assignment `l[k] = v`: overwrite the existing entry, or
append a fresh one at the end. -/
def upsert {α : Type} : List (String × α) → String → α → List (String × α)
  | [], k, v => [(k, v)]
  | (k2, w) :: rest, k, v =>
      if k2 = k then (k2, v) :: rest else (k2, w) :: upsert rest k v

/-- Python `l[k] += f if k in l else l[k] = f` on dicts of series
(pointwise addition of series). -/
def addEntry : SeriesMap → String → Series → SeriesMap
  | [], k, f => [(k, f)]
  | (k2, g) :: rest, k, f =>
      if k2 = k then (k2, fun t => g t + f t) :: rest
      else (k2, g) :: addEntry rest k f

/-- Update the value at the first occurrence of a key, leaving the list
unchanged when the key is absent. -/
def updateVal {α : Type} : List (String × α) → String → (α → α) → List (String × α)
  | [], _, _ => []
  | (k2, v) :: rest, k, f =>
      if k2 = k then (k2, f v) :: rest else (k2, v) :: updateVal rest k f

/-- The value of the named columns summed at time `t`
(`Σ_col l[col][t]`). -/
def sumAt (l : SeriesMap) (t : ℕ) : ℚ :=
  (l.map (fun p => p.2 t)).sum

/-! ### Lemmas about the association-list operations -/

theorem findVal_eq_some_of_mem_of_nodup {α : Type} {l : List (String × α)}
    {k : String} {v : α} (hm : (k, v) ∈ l) (hnd : (l.map Prod.fst).Nodup) :
    findVal l k = some v := by
  induction l with
  | nil => cases hm
  | cons p rest ih =>
    rcases List.mem_cons.mp hm with h | h
    · subst h
      simp [findVal]
    · simp only [List.map_cons, List.nodup_cons] at hnd
      have hk : p.1 ≠ k := by
        intro he
        have : k ∈ rest.map Prod.fst := List.mem_map.mpr ⟨(k, v), h, rfl⟩
        exact hnd.1 (he ▸ this)
      obtain ⟨k2, w⟩ := p
      simp only [findVal, if_neg hk]
      exact ih h hnd.2

theorem findVal_mem {α : Type} {l : List (String × α)} {k : String} {v : α}
    (h : findVal l k = some v) : (k, v) ∈ l := by
  induction l with
  | nil => simp [findVal] at h
  | cons p rest ih =>
    obtain ⟨k2, w⟩ := p
    by_cases hk : k2 = k
    · subst hk
      simp [findVal] at h
      simp [h]
    · simp only [findVal, if_neg hk] at h
      exact List.mem_cons_of_mem _ (ih h)

theorem hasKey_iff_mem {α : Type} {l : List (String × α)} {k : String} :
    hasKey l k = true ↔ k ∈ l.map Prod.fst := by
  induction l with
  | nil => simp [hasKey, findVal]
  | cons p rest ih =>
    obtain ⟨k2, w⟩ := p
    by_cases hk : k2 = k
    · subst hk; simp [hasKey, findVal]
    · simp only [hasKey, findVal, if_neg hk, List.map_cons, List.mem_cons]
      rw [hasKey] at ih
      rw [ih]
      constructor
      · exact Or.inr
      · rintro (h | h)
        · exact absurd h.symm hk
        · exact h

theorem sumAt_addEntry (l : SeriesMap) (k : String) (f : Series) (t : ℕ) :
    sumAt (addEntry l k f) t = sumAt l t + f t := by
  induction l with
  | nil => simp [addEntry, sumAt]
  | cons p rest ih =>
    obtain ⟨k2, g⟩ := p
    by_cases hk : k2 = k
    · simp [addEntry, if_pos hk, sumAt]
      ring
    · simp [addEntry, if_neg hk, sumAt] at *
      rw [ih]
      ring

theorem sumAt_eraseKey {l : SeriesMap} {k : String} {g : Series}
    (h : findVal l k = some g) (t : ℕ) :
    sumAt (eraseKey l k) t = sumAt l t - g t := by
  induction l with
  | nil => simp [findVal] at h
  | cons p rest ih =>
    obtain ⟨k2, w⟩ := p
    by_cases hk : k2 = k
    · simp only [findVal, if_pos hk, Option.some.injEq] at h
      subst h
      simp [eraseKey, if_pos hk, sumAt]
    · simp only [findVal, if_neg hk] at h
      simp [eraseKey, if_neg hk, sumAt] at *
      rw [ih h]
      ring

theorem sumAt_append (l1 l2 : SeriesMap) (t : ℕ) :
    sumAt (l1 ++ l2) t = sumAt l1 t + sumAt l2 t := by
  simp [sumAt]

theorem sumAt_updateVal_add (l : SeriesMap) (k : String) (c : ℚ) (n : ℕ)
    (hk : hasKey l k = true) {t : ℕ} (ht : t < n) :
    sumAt (updateVal l k (fun s => fun u => if u < n then s u + c else s u)) t
      = sumAt l t + c := by
  induction l with
  | nil => simp [hasKey, findVal] at hk
  | cons p rest ih =>
    obtain ⟨k2, g⟩ := p
    by_cases h2 : k2 = k
    · simp [updateVal, if_pos h2, sumAt, if_pos ht]
      ring
    · simp only [hasKey, findVal, if_neg h2] at hk
      simp [updateVal, if_neg h2, sumAt] at *
      rw [ih hk]
      ring

theorem findVal_upsert_self {α : Type} (l : List (String × α)) (k : String) (v : α) :
    findVal (upsert l k v) k = some v := by
  induction l with
  | nil => simp [upsert, findVal]
  | cons p rest ih =>
    obtain ⟨k2, w⟩ := p
    by_cases hk : k2 = k
    · simp [upsert, if_pos hk, findVal, hk]
    · simp [upsert, if_neg hk, findVal, if_neg hk, ih]

theorem findVal_upsert_ne {α : Type} (l : List (String × α)) (k k2 : String) (v : α)
    (hne : k ≠ k2) : findVal (upsert l k v) k2 = findVal l k2 := by
  induction l with
  | nil => simp [upsert, findVal, if_neg hne]
  | cons p rest ih =>
    obtain ⟨k3, w⟩ := p
    by_cases hk : k3 = k
    · subst hk
      simp [upsert, findVal, if_neg hne]
    · simp [upsert, if_neg hk, findVal, ih]

theorem eraseKey_upsert_nil {α : Type} (l : List (String × α)) (k : String) (v : α)
    (h : (upsert l k v).map Prod.fst = [k]) : eraseKey (upsert l k v) k = [] := by
  cases hu : upsert l k v with
  | nil => simp [eraseKey]
  | cons p rest =>
    rw [hu] at h
    obtain ⟨k2, w⟩ := p
    simp only [List.map_cons, List.cons.injEq] at h
    obtain ⟨hk, hrest⟩ := h
    have : rest = [] := by
      cases rest with
      | nil => rfl
      | cons q qs => simp at hrest
    subst this
    simp [eraseKey, hk]

/-! ## Minima, maxima, means over the observation window -/

/-- Minimum of a list of rationals (`pandas.Series.min` over a non-empty
series; `0` on the empty list, which never occurs with `n ≥ 1`). -/
def listMin : List ℚ → ℚ
  | [] => 0
  | x :: xs => xs.foldl min x

/-- Maximum of a list of rationals (`pandas.Series.max`). -/
def listMax : List ℚ → ℚ
  | [] => 0
  | x :: xs => xs.foldl max x

/-- `Σ_{t < n} f t`. -/
def sumRange (n : ℕ) (f : Series) : ℚ :=
  ((List.range n).map f).sum

/-- `pandas.Series.min` over the first `n` observations. -/
def minObs (n : ℕ) (f : Series) : ℚ := listMin ((List.range n).map f)

/-- `pandas.Series.max` over the first `n` observations. -/
def maxObs (n : ℕ) (f : Series) : ℚ := listMax ((List.range n).map f)

/-- `pandas.Series.mean` over the first `n` observations. -/
def seriesMean (n : ℕ) (f : Series) : ℚ := sumRange n f / n

/-! ## `model_operations.apply_adstock` -/

/-- The tail of the adstock recurrence: given the previous output value
`prev`, produce the outputs for the remaining inputs
(`result.iloc[i] = series.iloc[i] + rate * result.iloc[i-1]`). -/
def adstockAux (rate : ℚ) : ℚ → List ℚ → List ℚ
  | _, [] => []
  | prev, x :: xs =>
      let y := x + rate * prev
      y :: adstockAux rate y xs

/-- `model_operations.apply_adstock`: returns the input unchanged when
`adstock_rate == 0`, otherwise applies the carry-over recurrence with
`result.iloc[0]` left at `series.iloc[0]`. -/
def apply_adstock (series : List ℚ) (rate : ℚ) : List ℚ :=
  if rate = 0 then series
  else
    match series with
    | [] => []
    | x :: xs => x :: adstockAux rate x xs

theorem adstockAux_length (rate prev : ℚ) (xs : List ℚ) :
    (adstockAux rate prev xs).length = xs.length := by
  induction xs generalizing prev with
  | nil => simp [adstockAux]
  | cons x xs ih => simp [adstockAux, ih]

theorem apply_adstock_length (series : List ℚ) (rate : ℚ) :
    (apply_adstock series rate).length = series.length := by
  unfold apply_adstock
  by_cases h : rate = 0
  · simp [h]
  · simp only [if_neg h]
    cases series with
    | nil => rfl
    | cons x xs => simp [adstockAux_length]

theorem adstockAux_recurrence (rate : ℚ) (xs : List ℚ) :
    ∀ (prev : ℚ) (i : ℕ), i + 1 < (prev :: adstockAux rate prev xs).length →
      (prev :: adstockAux rate prev xs).getD (i + 1) 0 =
        xs.getD i 0 + rate * (prev :: adstockAux rate prev xs).getD i 0 := by
  induction xs with
  | nil => intro prev i h; simp [adstockAux] at h
  | cons x xs ih =>
    intro prev i h
    cases i with
    | zero => simp [adstockAux]
    | succ j =>
      have h2 := ih (x + rate * prev) j (by
        simpa [adstockAux, adstockAux_length] using h)
      simpa [adstockAux] using h2

/-- C9: for every input series and rate in `[0,1)`, the adstock transform
satisfies `y[0] = x[0]` and `y[i] = x[i] + rate * y[i-1]` for `i > 0`, and
`rate = 0` is the elementwise identity. -/
theorem apply_adstock_spec (x : List ℚ) (rate : ℚ)
    (h0 : 0 ≤ rate) (h1 : rate < 1) :
    (apply_adstock x rate).length = x.length ∧
    (apply_adstock x rate).getD 0 0 = x.getD 0 0 ∧
    (∀ i : ℕ, i + 1 < x.length →
      (apply_adstock x rate).getD (i + 1) 0 =
        x.getD (i + 1) 0 + rate * (apply_adstock x rate).getD i 0) ∧
    apply_adstock x 0 = x := by
  refine ⟨apply_adstock_length x rate, ?_, ?_, by simp [apply_adstock]⟩
  · unfold apply_adstock
    by_cases h : rate = 0
    · simp [h]
    · simp only [if_neg h]
      cases x with
      | nil => rfl
      | cons a xs => rfl
  · intro i hi
    by_cases h : rate = 0
    · subst h
      simp only [apply_adstock, if_pos rfl]
      cases x with
      | nil => simp at hi
      | cons a xs => simp
    · unfold apply_adstock
      simp only [if_neg h]
      cases x with
      | nil => simp at hi
      | cons a xs =>
        have := adstockAux_recurrence rate xs a i
          (by simpa [adstockAux_length] using hi)
        simpa using this

/-! ## `linear_models.LinearModel`

The mutable state of `LinearModel` objects, and its mutating operations,
embedded as state-passing functions.  The OLS solver
(`statsmodels.api.OLS(y, X).fit()`, external to the repository) is a
parameter of type `Ols`; it receives the target series, the design matrix
as an ordered list of named columns (the intercept column first, exactly
as `sm.add_constant` produces it), and the number of observations, and
returns `none` when fitting raises an exception.

The `self.model` attribute (the un-fitted `statsmodels` model object
rebuilt before each fit) is an internal handle fully determined by the
`(y, X)` pair passed to the solver and is not part of the embedded state;
`self.results` (the spec's `currentFit`) is. -/

/-- The slice of a fitted `statsmodels` result object that the repository
reads.  `params` mirrors `results.params` as the attribute reads back after
the fixed-coefficient code overwrites it on the result wrapper; the
remaining fit statistics (here `rsquared` and the squared t-statistics
`tSq`) always come from the underlying fit. -/
structure FitResult where
  params : List (String × ℚ)
  tSq : List (String × ℚ)
  rsquared : ℚ
deriving DecidableEq

/-- The OLS solver interface: target, named design columns (intercept
first), number of observations. -/
abbrev Ols : Type := Series → SeriesMap → ℕ → Option FitResult

/-- The state of a `LinearModel` object. -/
@[ext]
structure ModelState where
  n : ℕ
  kpi : Option String
  model_data : Option SeriesMap
  features : List String
  feature_transformations : List (String × String)
  transformed_data : SeriesMap
  fixed_coefficients : List (String × ℚ)
  results : Option FitResult

/-- The column used for a feature when building a design matrix: the
transformed data if present, otherwise the raw `model_data` column
(`X[feat] = self.transformed_data[feat] if feat in self.transformed_data
else self.model_data[feat]`). -/
def featCol (s : ModelState) (f : String) : Series :=
  match findVal s.transformed_data f with
  | some ser => ser
  | none => (findVal (s.model_data.getD []) f).getD (fun _ => 0)

/-- The full design matrix `sm.add_constant(X)`: the intercept column
first, then the features in model order. -/
def designMatrix (s : ModelState) : SeriesMap :=
  ("const", fun _ => 1) :: s.features.map (fun f => (f, featCol s f))

/-- The target series `self.model_data[self.kpi]`. -/
def targetOf (s : ModelState) : Series :=
  match s.kpi, s.model_data with
  | some k, some d => (findVal d k).getD (fun _ => 0)
  | _, _ => fun _ => 0

/-- `LinearModel._apply_transformation` (the `STA` / `SUB` / `MDV`
string-coded transforms; anything else passes the original values
through with a logged warning). -/
def applyTransformationSeries (s : ModelState) (fname tr : String) : Series :=
  match s.model_data with
  | none => fun _ => 0
  | some d =>
    let orig := (findVal d fname).getD (fun _ => 0)
    let m := seriesMean s.n orig
    if tr = "STA" then (if m ≠ 0 then fun t => orig t / m else orig)
    else if tr = "SUB" then fun t => orig t - m
    else if tr = "MDV" then
      match s.kpi with
      | some k =>
          if hasKey d k then
            let km := seriesMean s.n ((findVal d k).getD (fun _ => 0))
            if km ≠ 0 then fun t => orig t / km else orig
          else orig
      | none => orig
    else orig

/-- The new `results` produced by `LinearModel.initialize_model` (the
method mutates only `self.results`, and keeps the old value on a missing
KPI, missing data, or solver failure: the exception is caught and
logged). -/
def initResults (ols : Ols) (s : ModelState) : Option FitResult :=
  match s.kpi, s.model_data with
  | some k, some d =>
      let y := (findVal d k).getD (fun _ => 0)
      match ols y [("const", fun _ => 1)] s.n with
      | some r => some r
      | none => s.results
  | _, _ => s.results

/-- `LinearModel.initialize_model`: fit the intercept-only model. -/
def initialize_model (ols : Ols) (s : ModelState) : ModelState :=
  { s with results := initResults ols s }

/-- `add_feature`'s transformation resolution: the explicit argument if
given, otherwise the data loader's per-column default
(`self.loader.get_transformation(feature_name)`). -/
def resolveTransformation (loaderT : Option (String → Option String))
    (transformation : Option String) (fname : String) : Option String :=
  match transformation, loaderT with
  | none, some lt => lt fname
  | t, _ => t

/-- The state of the model just before `add_feature` fits: the resolved
transformation is recorded and applied when truthy, and the feature is
appended to the feature list. -/
def addFeaturePre (loaderT : Option (String → Option String))
    (s : ModelState) (fname : String) (transformation : Option String) :
    ModelState :=
  let tr : Option String := resolveTransformation loaderT transformation fname
  let s1 :=
    match tr with
    | some t =>
        if t = "" then s
        else { s with
          feature_transformations := upsert s.feature_transformations fname t,
          transformed_data :=
            upsert s.transformed_data fname (applyTransformationSeries s fname t) }
    | none => s
  { s1 with features := s1.features ++ [fname] }

/-- `LinearModel.add_feature`: input checks, transform resolution, append,
refit; on a fit failure the feature is removed again from the feature
list, the transformation map and the transformed-data cache, and
`results` is left at its previous value. -/
def add_feature (ols : Ols) (loaderT : Option (String → Option String))
    (s : ModelState) (fname : String) (transformation : Option String) :
    ModelState :=
  match s.kpi, s.model_data with
  | some k, some d =>
      if ¬ hasKey d fname then s
      else if fname = k then s
      else if fname ∈ s.features then s
      else
        let s2 := addFeaturePre loaderT s fname transformation
        let y := (findVal d k).getD (fun _ => 0)
        match ols y (designMatrix s2) s.n with
        | some r => { s2 with results := some r }
        | none =>
            { s2 with
              features := s2.features.erase fname,
              feature_transformations := eraseKey s2.feature_transformations fname,
              transformed_data := eraseKey s2.transformed_data fname }
  | _, _ => s

/-- The state of the model after `remove_feature`'s three deletions (the
feature, its transformation entry, its transformed-data entry), before
the refit. -/
def removeFeaturePre (s : ModelState) (fname : String) : ModelState :=
  { s with
    features := s.features.erase fname,
    feature_transformations := eraseKey s.feature_transformations fname,
    transformed_data := eraseKey s.transformed_data fname }

/-- The plain (fixed-coefficient-ignoring) refit that `remove_feature`
performs on a non-empty remaining feature list; only `results` changes,
and a raised exception (solver failure, missing KPI or data) keeps the
old value. -/
def plainRefitResults (ols : Ols) (s : ModelState) : Option FitResult :=
  match s.kpi, s.model_data with
  | some k, some d =>
      let y := (findVal d k).getD (fun _ => 0)
      match ols y (designMatrix s) s.n with
      | some r => some r
      | none => s.results
  | _, _ => s.results

/-- `LinearModel.remove_feature`: drop the feature, its transformation
entry and its transformed-data entry, then refit (falling back to
`initialize_model` when the feature list becomes empty).  The
`fixed_coefficients` dict is not touched. -/
def remove_feature (ols : Ols) (s : ModelState) (fname : String) : ModelState :=
  if fname ∉ s.features then s
  else
    let s1 := removeFeaturePre s fname
    if s1.features = [] then initialize_model ols s1
    else { s1 with results := plainRefitResults ols s1 }

/-- The new `results` produced by
`LinearModel._refit_model_with_fixed_coefficients`.  With no fixed
coefficients this is the ordinary OLS fit of the target on the full
design.  Otherwise the target is adjusted by subtracting the fixed
components, the non-fixed features are refit against the adjusted target
(with an intercept unless the intercept is fixed), and the final
parameter vector overlays the fixed values and the auxiliary estimates on
an unconstrained full fit, whose remaining fit statistics are kept.  When
every feature and the intercept are fixed the auxiliary regression is
skipped and only the unconstrained full fit's parameters are
overwritten. -/
def refitFixedResults (ols : Ols) (s : ModelState) : Option FitResult :=
  match s.kpi, s.model_data with
  | some k, some d =>
      if s.features = [] then s.results
      else
        let y := (findVal d k).getD (fun _ => 0)
        if s.fixed_coefficients = [] then
          match ols y (designMatrix s) s.n with
          | some r => some r
          | none => s.results
        else
          let remaining := s.features.filter (fun f => ¬ hasKey s.fixed_coefficients f)
          if remaining = [] ∧ hasKey s.fixed_coefficients "const" then
            match ols y (designMatrix s) s.n with
            | none => s.results
            | some r =>
                some ({ r with params :=
                    s.fixed_coefficients.foldl (fun p q => upsert p q.1 q.2) r.params })
          else
            let adjY := s.fixed_coefficients.foldl (fun ay p =>
              if p.1 = "const" then fun t => ay t - p.2
              else if p.1 ∈ s.features then fun t => ay t - p.2 * featCol s p.1 t
              else ay) y
            let Xrem0 := remaining.map (fun f => (f, featCol s f))
            let Xrem :=
              if hasKey s.fixed_coefficients "const" then Xrem0
              else ("const", fun _ => 1) :: Xrem0
            match ols adjY Xrem s.n with
            | none => s.results
            | some remRes =>
                match ols y (designMatrix s) s.n with
                | none => s.results
                | some r =>
                    let p0 := s.fixed_coefficients.foldl
                      (fun p q => upsert p q.1 q.2) r.params
                    let p1 :=
                      if ¬ hasKey s.fixed_coefficients "const"
                          ∧ hasKey remRes.params "const" then
                        upsert p0 "const" ((findVal remRes.params "const").getD 0)
                      else p0
                    let p2 := remaining.foldl (fun p f =>
                      match findVal remRes.params f with
                      | some val => upsert p f val
                      | none => p) p1
                    some ({ r with params := p2 })
  | _, _ => s.results

/-- `LinearModel._refit_model_with_fixed_coefficients` as a state update:
the method mutates only `self.results`. -/
def refit_model_with_fixed_coefficients (ols : Ols) (s : ModelState) :
    ModelState :=
  { s with results := refitFixedResults ols s }

/-- `LinearModel.set_fixed_coefficient`: raises `ValueError` (carrying the
object's unmutated state) when the variable is neither a current feature
nor `"const"`; otherwise stores the value and refits. -/
def set_fixed_coefficient (ols : Ols) (s : ModelState) (v : String) (c : ℚ) :
    Except (String × ModelState) ModelState :=
  if v ∉ s.features ∧ v ≠ "const" then
    .error ("Variable not in model features", s)
  else
    .ok (refit_model_with_fixed_coefficients ols
      { s with fixed_coefficients := upsert s.fixed_coefficients v c })

/-- `LinearModel.unset_fixed_coefficient`: delete the entry (when present)
and refit. -/
def unset_fixed_coefficient (ols : Ols) (s : ModelState) (v : String) :
    ModelState :=
  if hasKey s.fixed_coefficients v then
    refit_model_with_fixed_coefficients ols
      { s with fixed_coefficients := eraseKey s.fixed_coefficients v }
  else s

/-- The fix-then-unfix scenario of the fix/unfix round-trip property:
`set_fixed_coefficient(v, c)` followed by `unset_fixed_coefficient(v)`
(a raised `ValueError` leaves the object at the state it carried). -/
def afterSetUnset (ols : Ols) (s : ModelState) (v : String) (c : ℚ) :
    ModelState :=
  match set_fixed_coefficient ols s v c with
  | .ok s1 => unset_fixed_coefficient ols s1 v
  | .error e => e.2

/-! ## A concrete OLS solver modelled from the spec -/

/-- `Σ_{t<n} (x t − x̄)(y t − ȳ)`. -/
def covSum (n : ℕ) (x y : Series) : ℚ :=
  sumRange n (fun t => (x t - seriesMean n x) * (y t - seriesMean n y))

/-- The fitted values `X · params` of a parameter vector on a named
design (spec §4.2: fitted values of the coefficient vector). -/
def fittedFromParams (params : List (String × ℚ)) (X : SeriesMap) : Series :=
  fun t => (X.map (fun p => ((findVal params p.1).getD 0) * p.2 t)).sum

/-- `R² = 1 − SSR/SST` computed from the residuals of a given fitted
series (spec §4.2). -/
def rsquaredOfResiduals (n : ℕ) (y fitted : Series) : ℚ :=
  1 - sumRange n (fun t => (y t - fitted t) ^ 2)
      / sumRange n (fun t => (y t - seriesMean n y) ^ 2)

/-- Modelled from the spec: the `OLSEngine` (`statsmodels.api.OLS`, an
external library, not part of `src/`), per spec §4.2 — least-squares
coefficients, `t = coefficient / SE` (represented by its square `tSq` to
stay in `ℚ`), `R² = 1 − SSR/SST`, failure on a singular design.
Implemented in closed form for the two design shapes the concrete
witnesses and counterexamples exercise: the intercept-only design and
one regressor plus intercept; degenerate inputs (too few observations,
zero-variance columns, perfect fits — whose standard errors or `R²` are
not finite numbers) and other design shapes report failure. -/
def olsSpec : Ols := fun y X n =>
  match X with
  | [(c0, _)] =>
      let ybar := seriesMean n y
      let syy := covSum n y y
      if c0 = "const" ∧ 2 ≤ n ∧ syy ≠ 0 then
        some { params := [("const", ybar)],
               tSq := [("const", ybar ^ 2 * n * (n - 1) / syy)],
               rsquared := 1 - syy / syy }
      else none
  | [(c0, _), (nm, x)] =>
      let ybar := seriesMean n y
      let xbar := seriesMean n x
      let sxx := covSum n x x
      let syy := covSum n y y
      let sxy := covSum n x y
      if c0 = "const" ∧ 3 ≤ n ∧ sxx ≠ 0 ∧ syy ≠ 0
          ∧ syy - sxy ^ 2 / sxx ≠ 0 then
        let b := sxy / sxx
        let a := ybar - b * xbar
        let ssr := syy - sxy ^ 2 / sxx
        some { params := [("const", a), (nm, b)],
               tSq := [("const", a ^ 2 * (n - 2) * n * sxx / (ssr * (sxx + n * xbar ^ 2))),
                       (nm, b ^ 2 * sxx * (n - 2) / ssr)],
               rsquared := 1 - ssr / syy }
      else none
  | _ => none

/-- A trivial always-succeeding solver, used to instantiate
solver-parametric theorems in witnesses. -/
def olsTriv : Ols := fun _ _ _ => some { params := [], tSq := [], rsquared := 0 }

/-- A trivial always-failing solver (every fit raises), used to
instantiate failure hypotheses in witnesses. -/
def olsFail : Ols := fun _ _ _ => none

/-! ### Further association-list lemmas -/

theorem eraseKey_of_not_hasKey {α : Type} {l : List (String × α)} {k : String}
    (h : hasKey l k = false) : eraseKey l k = l := by
  induction l with
  | nil => rfl
  | cons p rest ih =>
    obtain ⟨k2, v⟩ := p
    by_cases hk : k2 = k
    · simp [hasKey, findVal, hk] at h
    · simp only [hasKey, findVal, if_neg hk] at h
      simp [eraseKey, if_neg hk, ih h]

theorem eraseKey_upsert_of_not_hasKey {α : Type} {l : List (String × α)}
    {k : String} (v : α) (h : hasKey l k = false) :
    eraseKey (upsert l k v) k = l := by
  induction l with
  | nil => simp [upsert, eraseKey]
  | cons p rest ih =>
    obtain ⟨k2, w⟩ := p
    by_cases hk : k2 = k
    · simp [hasKey, findVal, hk] at h
    · simp only [hasKey, findVal, if_neg hk] at h
      simp [upsert, if_neg hk, eraseKey, if_neg hk, ih h]

theorem hasKey_upsert_self {α : Type} (l : List (String × α)) (k : String) (v : α) :
    hasKey (upsert l k v) k = true := by
  simp [hasKey, findVal_upsert_self]

theorem findVal_foldl_upsert_not_mem {α : Type} (l : List (String × α))
    (init : List (String × α)) (v : String) (hv : v ∉ l.map Prod.fst) :
    findVal (l.foldl (fun p q => upsert p q.1 q.2) init) v = findVal init v := by
  induction l generalizing init with
  | nil => rfl
  | cons q rest ih =>
    simp only [List.map_cons, List.mem_cons] at hv
    push_neg at hv
    simp only [List.foldl_cons]
    rw [ih _ hv.2, findVal_upsert_ne _ _ _ _ (fun he => hv.1 he.symm)]

theorem findVal_foldl_upsert_mem {α : Type} (l : List (String × α))
    (init : List (String × α)) {v : String} {c : α}
    (hm : (v, c) ∈ l) (hnd : (l.map Prod.fst).Nodup) :
    findVal (l.foldl (fun p q => upsert p q.1 q.2) init) v = some c := by
  induction l generalizing init with
  | nil => cases hm
  | cons q rest ih =>
    simp only [List.map_cons, List.nodup_cons] at hnd
    rcases List.mem_cons.mp hm with h | h
    · subst h
      simp only [List.foldl_cons]
      rw [findVal_foldl_upsert_not_mem _ _ _ hnd.1, findVal_upsert_self]
    · simp only [List.foldl_cons]
      exact ih _ h hnd.2

/-! ### Field lemmas for the mutating operations -/

theorem addFeaturePre_fields (loaderT : Option (String → Option String))
    (s : ModelState) (fname : String) (transformation : Option String) :
    (addFeaturePre loaderT s fname transformation).n = s.n ∧
    (addFeaturePre loaderT s fname transformation).kpi = s.kpi ∧
    (addFeaturePre loaderT s fname transformation).model_data = s.model_data ∧
    (addFeaturePre loaderT s fname transformation).features = s.features ++ [fname] ∧
    (addFeaturePre loaderT s fname transformation).fixed_coefficients
      = s.fixed_coefficients ∧
    (addFeaturePre loaderT s fname transformation).results = s.results := by
  unfold addFeaturePre
  rcases resolveTransformation loaderT transformation fname with _ | t
  · exact ⟨rfl, rfl, rfl, rfl, rfl, rfl⟩
  · by_cases ht : t = "" <;> simp [ht]

theorem addFeaturePre_ft_erase (loaderT : Option (String → Option String))
    (s : ModelState) (fname : String) (transformation : Option String)
    (h : hasKey s.feature_transformations fname = false) :
    eraseKey (addFeaturePre loaderT s fname transformation).feature_transformations
      fname = s.feature_transformations := by
  unfold addFeaturePre
  rcases resolveTransformation loaderT transformation fname with _ | t
  · exact eraseKey_of_not_hasKey h
  · by_cases ht : t = ""
    · simp only [ht, if_pos rfl]
      exact eraseKey_of_not_hasKey h
    · simp only [if_neg ht]
      exact eraseKey_upsert_of_not_hasKey _ h

theorem addFeaturePre_td_erase (loaderT : Option (String → Option String))
    (s : ModelState) (fname : String) (transformation : Option String)
    (h : hasKey s.transformed_data fname = false) :
    eraseKey (addFeaturePre loaderT s fname transformation).transformed_data
      fname = s.transformed_data := by
  unfold addFeaturePre
  rcases resolveTransformation loaderT transformation fname with _ | t
  · exact eraseKey_of_not_hasKey h
  · by_cases ht : t = ""
    · simp only [ht, if_pos rfl]
      exact eraseKey_of_not_hasKey h
    · simp only [if_neg ht]
      exact eraseKey_upsert_of_not_hasKey _ h

/-! ## Claim theorems about `LinearModel` -/

/-- C10: `set_fixed_coefficient(v, c)` raises a `ValueError` when `v` is
neither a current feature nor the intercept name `"const"`, and the check
precedes every mutation, so the raised error carries the model state
completely unchanged. -/
theorem set_fixed_coefficient_invalid_variable (ols : Ols) (s : ModelState)
    (v : String) (c : ℚ) (hv : v ∉ s.features) (hc : v ≠ "const") :
    set_fixed_coefficient ols s v c =
      Except.error ("Variable not in model features", s) := by
  unfold set_fixed_coefficient
  rw [if_pos ⟨hv, hc⟩]

/-- Witness for `set_fixed_coefficient_invalid_variable` at a concrete
model and variable. -/
theorem set_fixed_coefficient_invalid_variable_witness :
    "zz" ∉ (⟨1, some "y", some [("y", fun _ => 1)], ["x"], [], [], [], none⟩ :
        ModelState).features ∧
    set_fixed_coefficient olsTriv
        ⟨1, some "y", some [("y", fun _ => 1)], ["x"], [], [], [], none⟩ "zz" 3 =
      Except.error ("Variable not in model features",
        ⟨1, some "y", some [("y", fun _ => 1)], ["x"], [], [], [], none⟩) :=
  ⟨by decide, set_fixed_coefficient_invalid_variable olsTriv _ "zz" 3
    (by decide) (by decide)⟩

/-- The design matrix depends only on the feature list, the
transformed-data cache and the model data. -/
theorem designMatrix_eq {s1 s2 : ModelState} (h1 : s1.features = s2.features)
    (h2 : s1.transformed_data = s2.transformed_data)
    (h3 : s1.model_data = s2.model_data) : designMatrix s1 = designMatrix s2 := by
  unfold designMatrix featCol
  rw [h1]
  simp only [h2, h3]

/-- C4: fixing a coefficient and then unfixing it again (leaving no fixed
coefficients) stores exactly the result of the ordinary OLS fit of the
unchanged feature set — the very fit a never-fixed model performs. -/
theorem fix_unfix_round_trip (ols : Ols) (s : ModelState) (v : String) (c : ℚ)
    (k : String) (d : SeriesMap) (r : FitResult)
    (hk : s.kpi = some k) (hd : s.model_data = some d)
    (hv : v ∈ s.features)
    (honly : (upsert s.fixed_coefficients v c).map Prod.fst = [v])
    (hols : ols ((findVal d k).getD (fun _ => 0)) (designMatrix s) s.n = some r) :
    (afterSetUnset ols s v c).results = some r := by
  obtain ⟨n, kpi, md, fs, ft, td, fc, res⟩ := s
  simp only at hk hd hv honly hols
  subst hk
  subst hd
  have hfe : fs ≠ [] := by
    intro h
    rw [h] at hv
    cases hv
  unfold afterSetUnset set_fixed_coefficient
  rw [if_neg (fun hcon => hcon.1 hv)]
  simp only
  unfold unset_fixed_coefficient
  simp only [refit_model_with_fixed_coefficients]
  rw [if_pos (hasKey_upsert_self fc v c)]
  simp only [refitFixedResults]
  rw [eraseKey_upsert_nil fc v c honly]
  rw [if_neg hfe, if_pos rfl]
  have hols2 : ∀ (s2 : ModelState) (m : ℕ), s2.features = fs →
      s2.transformed_data = td → s2.model_data = some d → m = n →
      ols ((findVal d k).getD (fun _ => 0)) (designMatrix s2) m = some r := by
    intro s2 m h1 h2 h3 h4
    rw [@designMatrix_eq s2
      { n := n, kpi := some k, model_data := some d, features := fs,
        feature_transformations := ft, transformed_data := td,
        fixed_coefficients := fc, results := res } h1 h2 h3, h4]
    exact hols
  simp only [hols2]

/-- Concrete model used by the C4 witness. -/
def stateW4 : ModelState :=
  ⟨3, some "y", some [("y", fun _ => 1)], ["x"], [], [], [], none⟩

/-- Witness for `fix_unfix_round_trip` at a concrete model, feature and
solver. -/
theorem fix_unfix_round_trip_witness :
    "x" ∈ stateW4.features ∧
    (upsert stateW4.fixed_coefficients "x" 5).map Prod.fst = ["x"] ∧
    (afterSetUnset olsTriv stateW4 "x" 5).results =
      some { params := [], tSq := [], rsquared := 0 } :=
  ⟨by decide, by decide,
    fix_unfix_round_trip olsTriv stateW4 "x" 5 "y" [("y", fun _ => 1)]
      { params := [], tSq := [], rsquared := 0 }
      rfl rfl (by decide) (by decide) rfl⟩

/-- C8: when the refit inside `add_feature` fails, the candidate feature
is rolled back from the feature list, the transformation map and the
transformed-data cache, and the model state — in particular the current
fit `results` — is exactly what it was before the call. -/
theorem add_feature_failure_rollback (ols : Ols)
    (loaderT : Option (String → Option String)) (s : ModelState)
    (fname : String) (transformation : Option String) (k : String) (d : SeriesMap)
    (hk : s.kpi = some k) (hd : s.model_data = some d)
    (hin : hasKey d fname = true) (hne : fname ≠ k) (hnf : fname ∉ s.features)
    (hnt : hasKey s.feature_transformations fname = false)
    (hntd : hasKey s.transformed_data fname = false)
    (hfail : ols ((findVal d k).getD (fun _ => 0))
      (designMatrix (addFeaturePre loaderT s fname transformation)) s.n = none) :
    add_feature ols loaderT s fname transformation = s := by
  obtain ⟨hfn, hfk, hfd, hff, hffc, hfr⟩ :=
    addFeaturePre_fields loaderT s fname transformation
  obtain ⟨n, kpi, md, fs, ft, td, fc, res⟩ := s
  simp only at hk hd hnf hnt hntd hfail hfn hfk hfd hff hffc hfr
  subst hk
  subst hd
  unfold add_feature
  simp only [hin]
  rw [if_neg (by simp)]
  rw [if_neg hne, if_neg hnf]
  simp only [hfail]
  refine ModelState.ext ?_ ?_ ?_ ?_ ?_ ?_ ?_ ?_ <;> simp only
  · exact hfn
  · exact hfk
  · exact hfd
  · rw [hff, List.erase_append_right _ hnf]
    simp
  · exact addFeaturePre_ft_erase loaderT _ fname transformation hnt
  · exact addFeaturePre_td_erase loaderT _ fname transformation hntd
  · exact hffc
  · exact hfr

/-- Concrete data used by the C8 witness. -/
def dataW8 : SeriesMap := [("y", fun _ => 1), ("x", fun _ => 2)]

/-- Concrete model used by the C8 witness. -/
def stateW8 : ModelState := ⟨2, some "y", some dataW8, [], [], [], [], none⟩

/-- Witness for `add_feature_failure_rollback`: a concrete model, an
explicit transformation and the always-failing solver. -/
theorem add_feature_failure_rollback_witness :
    hasKey dataW8 "x" = true ∧ "x" ∉ stateW8.features ∧
    add_feature olsFail none stateW8 "x" (some "STA") = stateW8 :=
  ⟨by decide, by decide,
    add_feature_failure_rollback olsFail none stateW8 "x" (some "STA") "y" dataW8
      rfl rfl (by decide) (by decide) (by decide) (by decide) (by decide) rfl⟩

/-- C7 (amended): `remove_feature` deletes the feature from the feature
list, its transformation entry and its transformed-data entry and refits
(falling back to the intercept-only `initialize_model` fit when the
feature list becomes empty), but it does **not** delete the feature's
fixed-coefficient entry: `fixed_coefficients` is returned unchanged, so
the invariant that its keys lie in the features plus the intercept is not
preserved. -/
theorem remove_feature_spec (ols : Ols) (s : ModelState) (f : String)
    (hf : f ∈ s.features) :
    (remove_feature ols s f).features = s.features.erase f ∧
    (remove_feature ols s f).feature_transformations
      = eraseKey s.feature_transformations f ∧
    (remove_feature ols s f).transformed_data = eraseKey s.transformed_data f ∧
    (remove_feature ols s f).fixed_coefficients = s.fixed_coefficients ∧
    (s.features.erase f = [] →
      remove_feature ols s f = initialize_model ols (removeFeaturePre s f)) := by
  unfold remove_feature
  rw [if_neg (not_not_intro hf)]
  by_cases he : s.features.erase f = []
  · have : (removeFeaturePre s f).features = [] := he
    rw [if_pos this]
    refine ⟨?_, rfl, rfl, rfl, fun _ => rfl⟩
    simp [initialize_model, removeFeaturePre, he]
  · have : ¬ (removeFeaturePre s f).features = [] := he
    rw [if_neg this]
    exact ⟨rfl, rfl, rfl, rfl, fun hcon => absurd hcon he⟩

/-- Concrete model used by the C7 witness and counterexample: one feature
`"x"` carrying a transformation, transformed data, and a fixed
coefficient. -/
def stateRm : ModelState :=
  ⟨1, some "y", some [("y", fun _ => 1), ("x", fun _ => 2)],
    ["x"], [("x", "STA")], [("x", fun _ => 1)], [("x", 5)], none⟩

/-- Witness for `remove_feature_spec` at a concrete model and feature. -/
theorem remove_feature_spec_witness :
    "x" ∈ stateRm.features ∧
    ((remove_feature olsTriv stateRm "x").features = stateRm.features.erase "x" ∧
     (remove_feature olsTriv stateRm "x").feature_transformations
       = eraseKey stateRm.feature_transformations "x" ∧
     (remove_feature olsTriv stateRm "x").transformed_data
       = eraseKey stateRm.transformed_data "x" ∧
     (remove_feature olsTriv stateRm "x").fixed_coefficients
       = stateRm.fixed_coefficients ∧
     (stateRm.features.erase "x" = [] →
       remove_feature olsTriv stateRm "x"
         = initialize_model olsTriv (removeFeaturePre stateRm "x"))) :=
  ⟨by decide, remove_feature_spec olsTriv stateRm "x" (by decide)⟩

/-- Counterexample to C7 as stated: after removing the (only) feature
`"x"`, its fixed-coefficient entry is still present, and since `"x"` is
no longer a feature (and is not `"const"`), the claimed invariant
`fixedCoefficients keys ⊆ features ∪ {intercept}` is violated. -/
theorem remove_feature_keeps_fixed_entry :
    hasKey (remove_feature olsTriv stateRm "x").fixed_coefficients "x" = true ∧
    (remove_feature olsTriv stateRm "x").features = [] ∧
    ("x" : String) ≠ "const" := by
  refine ⟨?_, ?_, by decide⟩ <;> decide

/-- C5 (amended): when every feature and the intercept carry fixed
coefficients, the refit skips the auxiliary regression on the adjusted
target — the stored result is determined solely by the unconstrained OLS
fit of the *original* target on the full design — and reports the
supplied coefficient values; but the fit statistics (in particular `R²`)
are the unconstrained full fit's, not statistics recomputed from the
residuals of the fully-specified fitted values. -/
theorem refit_all_fixed_reports_supplied (ols : Ols) (s : ModelState)
    (k : String) (d : SeriesMap) (r : FitResult)
    (hk : s.kpi = some k) (hd : s.model_data = some d)
    (hfe : s.features ≠ [])
    (hrem : s.features.filter (fun f => ¬ hasKey s.fixed_coefficients f) = [])
    (hc : hasKey s.fixed_coefficients "const" = true)
    (hnd : (s.fixed_coefficients.map Prod.fst).Nodup)
    (hols : ols ((findVal d k).getD (fun _ => 0)) (designMatrix s) s.n = some r) :
    (refit_model_with_fixed_coefficients ols s).results =
      some ({ r with params :=
        s.fixed_coefficients.foldl (fun p q => upsert p q.1 q.2) r.params }) ∧
    ((refit_model_with_fixed_coefficients ols s).results.map
      (fun fr => fr.rsquared)) = some r.rsquared ∧
    (∀ v c, (v, c) ∈ s.fixed_coefficients →
      ((refit_model_with_fixed_coefficients ols s).results.bind
        (fun fr => findVal fr.params v)) = some c) := by
  obtain ⟨n, kpi, md, fs, ft, td, fc, res⟩ := s
  simp only at hk hd hfe hrem hc hnd hols
  subst hk
  subst hd
  have hfc : fc ≠ [] := by
    intro h
    rw [h] at hc
    simp [hasKey, findVal] at hc
  have hmain : refitFixedResults ols
      ⟨n, some k, some d, fs, ft, td, fc, res⟩ =
      some ({ r with params := fc.foldl (fun p q => upsert p q.1 q.2) r.params }) := by
    simp only [refitFixedResults]
    rw [if_neg hfe, if_neg hfc, if_pos ⟨hrem, hc⟩]
    rw [hols]
  refine ⟨?_, ?_, ?_⟩
  · simpa [refit_model_with_fixed_coefficients] using hmain
  · simp [refit_model_with_fixed_coefficients, hmain]
  · intro v c hm
    simp only [refit_model_with_fixed_coefficients, hmain, Option.bind_some]
    exact findVal_foldl_upsert_mem fc r.params hm hnd

/-- Concrete model used by the C5 witness: one feature, everything fixed. -/
def stateW5 : ModelState :=
  ⟨2, some "y", some [("y", fun _ => 1)], ["x"], [], [],
    [("const", 2), ("x", 3)], none⟩

/-- Witness for `refit_all_fixed_reports_supplied` at a concrete
fully-fixed model. -/
theorem refit_all_fixed_reports_supplied_witness :
    stateW5.features.filter (fun f => ¬ hasKey stateW5.fixed_coefficients f) = [] ∧
    hasKey stateW5.fixed_coefficients "const" = true ∧
    (refit_model_with_fixed_coefficients olsTriv stateW5).results =
      some { params := stateW5.fixed_coefficients.foldl
               (fun p q => upsert p q.1 q.2) [],
             tSq := [], rsquared := 0 } :=
  ⟨by decide, by decide,
    (refit_all_fixed_reports_supplied olsTriv stateW5 "y" [("y", fun _ => 1)]
      { params := [], tSq := [], rsquared := 0 }
      rfl rfl (by decide) (by decide) (by decide) (by decide) rfl).1⟩

/-- Concrete KPI series for the C5 counterexample: `y = [1, 2, 3]`. -/
def ysAllFixed : Series := fun t => if t = 0 then 1 else if t = 1 then 2 else 3

/-- Concrete regressor for the C5 counterexample: `x = [1, 2, 4]`. -/
def xsAllFixed : Series := fun t => if t = 0 then 1 else if t = 1 then 2 else 4

/-- Concrete fully-fixed model for the C5 counterexample: feature `"x"`
and intercept both fixed at `0`. -/
def stateAllFixed : ModelState :=
  ⟨3, some "y", some [("y", ysAllFixed), ("x", xsAllFixed)], ["x"], [], [],
    [("const", 0), ("x", 0)], none⟩

/-- Counterexample to C5 as stated: with every coefficient fixed (all at
`0`), the reported `R²` is `27/28` — the `R²` of the unconstrained OLS
fit of `y` on `[const, x]` — whereas the `R²` computed from the residuals
of the fully-specified fitted values (identically `0` here) is `−6`.  The
fit statistics therefore do *not* come from the fully-specified fitted
values. -/
theorem refit_all_fixed_rsquared_counterexample :
    ((refit_model_with_fixed_coefficients olsSpec stateAllFixed).results.map
      (fun fr => fr.rsquared)) = some (27 / 28) ∧
    rsquaredOfResiduals 3 ysAllFixed
      (fittedFromParams [("const", 0), ("x", 0)] (designMatrix stateAllFixed))
      = -6 ∧
    ((27 : ℚ) / 28) ≠ -6 := by
  refine ⟨?_, ?_, by norm_num⟩ <;>
    · simp [refit_model_with_fixed_coefficients, refitFixedResults,
        stateAllFixed, ysAllFixed, xsAllFixed, designMatrix, featCol, olsSpec,
        covSum, seriesMean, sumRange, findVal, hasKey, upsert, eraseKey,
        fittedFromParams, rsquaredOfResiduals, List.range_succ, List.filter]
      norm_num

/-- Witness for `apply_adstock_spec` at a concrete series and rate. -/
theorem apply_adstock_spec_witness :
    (0 : ℚ) ≤ 1 / 2 ∧ (1 / 2 : ℚ) < 1 ∧
    ((apply_adstock [1, 2] (1 / 2)).length = ([1, 2] : List ℚ).length ∧
     (apply_adstock [1, 2] (1 / 2)).getD 0 0 = ([1, 2] : List ℚ).getD 0 0 ∧
     (∀ i : ℕ, i + 1 < ([1, 2] : List ℚ).length →
       (apply_adstock [1, 2] (1 / 2)).getD (i + 1) 0 =
         ([1, 2] : List ℚ).getD (i + 1) 0
           + (1 / 2) * (apply_adstock [1, 2] (1 / 2)).getD i 0) ∧
     apply_adstock [1, 2] 0 = [1, 2]) :=
  ⟨by norm_num, by norm_num,
    apply_adstock_spec [1, 2] (1 / 2) (by norm_num) (by norm_num)⟩

/-! ## `decomposition.calculate_decomposition`

The inputs `calculate_decomposition(model, groups)` reads from the
fitted model: the number of observations, the KPI name, the feature
list, the coefficient vector `model.results.params`, the `model_data`
columns, and the `wgtd_variables` registry of weighted (composite)
variables.  The group assignment maps a variable name to its group name
and adjustment flag (`""`, `"Min"` or `"Max"`). -/

/-- One entry of a group assignment (`{'Group': ..., 'Adjustment': ...}`). -/
structure GroupInfo where
  group : String
  adjustment : String
deriving DecidableEq

/-- A group assignment: variable name to group info, in insertion order. -/
abbrev Groups : Type := List (String × GroupInfo)

/-- The slice of a fitted model that `calculate_decomposition` reads. -/
structure DecompModel where
  n : ℕ
  kpi : String
  features : List String
  params : List (String × ℚ)
  data : SeriesMap
  wgtd_variables : List (String × List (String × ℚ))
  fittedFallback : Series
deriving Inhabited

/-- The `Predicted` column: `model.results.predict(sm.add_constant(
data[model.features]))` — the dot product of the coefficient vector with
the intercept-plus-features design — falling back to the stored
predictions (`model.results.predict()`, the `fittedFallback` field) when
building the design or the matrix product raises (a feature missing from
the data, or a parameter vector whose keys do not line up with the
design's columns). -/
def predictSeries (m : DecompModel) : Series :=
  if m.features.all (fun f => hasKey m.data f)
      ∧ m.params.map Prod.fst = "const" :: m.features then
    fun t => (m.params.map (fun p =>
      p.2 * (if p.1 = "const" then 1
             else ((findVal m.data p.1).getD (fun _ => 0)) t))).sum
  else m.fittedFallback

/-- One iteration of step 1 of `calculate_decomposition`: the
contribution `coefficient × value` of one entry of the group assignment,
appended to the accumulated dict; variables without a coefficient, and
non-`'const'` variables missing from the data, are skipped. -/
def initStep (m : DecompModel) (acc : SeriesMap) (p : String × GroupInfo) :
    SeriesMap :=
  match findVal m.params p.1 with
  | none => acc
  | some coef =>
      if p.1 = "const" then acc ++ [(p.1, fun _ : ℕ => coef)]
      else
        match findVal m.data p.1 with
        | none => acc
        | some col => acc ++ [(p.1, fun t => coef * col t)]

/-- Step 1 of `calculate_decomposition`: the per-variable contributions,
iterating the group assignment in order. -/
def initialContributions (m : DecompModel) (groups : Groups) : SeriesMap :=
  groups.foldl (initStep m) []

/-- The inner loop of the weighted-variable expansion: one component
receives the share `coef / Σ|coef|` of the weighted variable's
contribution (added into an existing entry or appended), and inherits the
weighted variable's group info when it has no assignment of its own. -/
def compStep (w : String) (wContrib : Series) (total : ℚ)
    (acc : SeriesMap × Groups) (c : String × ℚ) : SeriesMap × Groups :=
  let vc3 := addEntry acc.1 c.1 (fun t => wContrib t * (c.2 / total))
  let gs3 :=
    if hasKey acc.2 c.1 then acc.2
    else
      match findVal acc.2 w with
      | some gi => acc.2 ++ [(c.1, gi)]
      | none => acc.2
  (vc3, gs3)

/-- One iteration of step 2 of `calculate_decomposition`: a registered
weighted variable present in the contribution dict (and with positive
total absolute component weight) is deleted and expanded over its
components. -/
def expandStep (acc : SeriesMap × Groups) (w : String × List (String × ℚ)) :
    SeriesMap × Groups :=
  match findVal acc.1 w.1 with
  | none => acc
  | some wContrib =>
      let total : ℚ := (w.2.map (fun c => |c.2|)).sum
      if 0 < total then
        w.2.foldl (compStep w.1 wContrib total) (eraseKey acc.1 w.1, acc.2)
      else acc

/-- Step 2 of `calculate_decomposition`: weighted-variable expansion over
the model's `wgtd_variables` registry, in registration order. -/
def expandWeighted (m : DecompModel) (vc : SeriesMap) (gs : Groups) :
    SeriesMap × Groups :=
  m.wgtd_variables.foldl expandStep (vc, gs)

/-- `if group_name not in grouped_contributions:
grouped_contributions[group_name] = pd.Series(0, ...)`: initialise a
fresh group at the zero series. -/
def ensureGroup (gc : SeriesMap) (g : String) : SeriesMap :=
  if hasKey gc g then gc else gc ++ [(g, fun _ : ℕ => 0)]

/-- One iteration of steps 3–4 of `calculate_decomposition`: apply the
variable's `Min`/`Max` adjustment (subtracting the extremum over the
observation window and recording the subtracted scalar) and add the
adjusted contribution into its group's series; a variable absent from
the group assignment is skipped. -/
def groupStep (n : ℕ) (gs : Groups)
    (acc : SeriesMap × List (String × ℚ)) (p : String × Series) :
    SeriesMap × List (String × ℚ) :=
  match findVal gs p.1 with
  | none => acc
  | some gi =>
      if gi.adjustment = "Min" then
        (addEntry (ensureGroup acc.1 gi.group) gi.group
          (fun t => p.2 t - minObs n p.2), acc.2 ++ [(p.1, minObs n p.2)])
      else if gi.adjustment = "Max" then
        (addEntry (ensureGroup acc.1 gi.group) gi.group
          (fun t => p.2 t - maxObs n p.2), acc.2 ++ [(p.1, maxObs n p.2)])
      else (addEntry (ensureGroup acc.1 gi.group) gi.group p.2, acc.2)

/-- Steps 3–4 of `calculate_decomposition`: grouping with adjustments. -/
def groupContributions (n : ℕ) (vc : SeriesMap) (gs : Groups) :
    SeriesMap × List (String × ℚ) :=
  vc.foldl (groupStep n gs) ([], [])

/-- Step 5 of `calculate_decomposition`: only when a `"Base"` group is
already present among the grouped contributions *and* at least one
adjustment was recorded, the sum of all recorded adjustment scalars is
added to every observation of the `"Base"` series.  No `"Base"` group is
ever created here. -/
def addBaseAdjustment (n : ℕ) (gc : SeriesMap) (adv : List (String × ℚ)) :
    SeriesMap :=
  if hasKey gc "Base" ∧ adv ≠ [] then
    updateVal gc "Base"
      (fun s => fun u => if u < n then s u + (adv.map Prod.snd).sum else s u)
  else gc

/-- The output table of `calculate_decomposition`: the `Actual` and
`Predicted` columns followed by one column per group. -/
structure DecompOutput where
  actual : Series
  predicted : Series
  groupCols : SeriesMap

/-- Steps 1–4 of `calculate_decomposition` composed: the grouped
contribution dict and the recorded adjustment scalars. -/
def decompGrouped (m : DecompModel) (groups : Groups) :
    SeriesMap × List (String × ℚ) :=
  let vc0 := initialContributions m groups
  let expanded := expandWeighted m vc0 groups
  groupContributions m.n expanded.1 expanded.2

/-- `decomposition.calculate_decomposition`. -/
def calculate_decomposition (m : DecompModel) (groups : Groups) : DecompOutput :=
  let grouped := decompGrouped m groups
  { actual := (findVal m.data m.kpi).getD (fun _ => 0),
    predicted := predictSeries m,
    groupCols := addBaseAdjustment m.n grouped.1 grouped.2 }


/-! ### The conservation lemma stack -/

theorem findVal_eq_none_of_not_mem {α : Type} {l : List (String × α)} {v : String}
    (h : v ∉ l.map Prod.fst) : findVal l v = none := by
  induction l with
  | nil => rfl
  | cons p rest ih =>
    simp only [List.map_cons, List.mem_cons] at h
    push_neg at h
    obtain ⟨k2, w⟩ := p
    simp only [findVal, if_neg (Ne.symm h.1)]
    exact ih h.2

theorem hasKey_of_mem {α : Type} {l : List (String × α)} {p : String × α}
    (h : p ∈ l) : hasKey l p.1 = true := by
  refine hasKey_iff_mem.mpr ?_
  exact List.mem_map.mpr ⟨p, h, rfl⟩

theorem hasKey_append_of_left {α : Type} {l1 : List (String × α)}
    (l2 : List (String × α)) {k : String} (h : hasKey l1 k = true) :
    hasKey (l1 ++ l2) k = true := by
  rw [hasKey_iff_mem] at h ⊢
  simp only [List.map_append, List.mem_append]
  exact Or.inl h

theorem hasKey_append_single_self {α : Type} (l : List (String × α))
    (k : String) (v : α) : hasKey (l ++ [(k, v)]) k = true := by
  rw [hasKey_iff_mem]
  simp

theorem hasKey_addEntry_elim {l : SeriesMap} {k v : String} {f : Series}
    (h : hasKey (addEntry l k f) v = true) : v = k ∨ hasKey l v = true := by
  induction l with
  | nil =>
    simp only [addEntry, hasKey, findVal] at h
    by_cases hv : k = v
    · exact Or.inl hv.symm
    · rw [if_neg hv] at h
      simp [findVal] at h
  | cons p rest ih =>
    obtain ⟨k2, g⟩ := p
    by_cases hk : k2 = k
    · simp only [addEntry, if_pos hk] at h
      by_cases hv : k2 = v
      · exact Or.inl (hk ▸ hv.symm ▸ rfl)
      · simp only [hasKey, findVal, if_neg hv] at h ⊢
        exact Or.inr h
    · simp only [addEntry, if_neg hk] at h
      by_cases hv : k2 = v
      · simp only [hasKey, findVal, if_pos hv]
        exact Or.inr rfl
      · simp only [hasKey, findVal, if_neg hv] at h ⊢
        exact ih h

theorem hasKey_eraseKey_elim {α : Type} {l : List (String × α)} {k v : String}
    (h : hasKey (eraseKey l k) v = true) : hasKey l v = true := by
  induction l with
  | nil => simpa [eraseKey] using h
  | cons p rest ih =>
    obtain ⟨k2, g⟩ := p
    by_cases hk : k2 = k
    · simp only [eraseKey, if_pos hk] at h
      by_cases hv : k2 = v
      · simp [hasKey, findVal, if_pos hv]
      · simp only [hasKey, findVal, if_neg hv]
        exact h
    · simp only [eraseKey, if_neg hk] at h
      by_cases hv : k2 = v
      · simp [hasKey, findVal, if_pos hv]
      · simp only [hasKey, findVal, if_neg hv] at h ⊢
        exact ih h

/-- The contribution of one entry of the group assignment in step 1 of
the decomposition (zero when the entry is skipped). -/
def contribTerm (m : DecompModel) (v : String) (t : ℕ) : ℚ :=
  match findVal m.params v with
  | none => 0
  | some coef =>
      if v = "const" then coef
      else
        match findVal m.data v with
        | none => 0
        | some col => coef * col t

theorem sumAt_initStep (m : DecompModel) (acc : SeriesMap)
    (p : String × GroupInfo) (t : ℕ) :
    sumAt (initStep m acc p) t = sumAt acc t + contribTerm m p.1 t := by
  unfold initStep contribTerm
  rcases findVal m.params p.1 with _ | coef
  · simp
  · by_cases hconst : p.1 = "const"
    · simp [if_pos hconst, sumAt_append, sumAt]
    · simp only [if_neg hconst]
      rcases findVal m.data p.1 with _ | col
      · simp
      · simp [sumAt_append, sumAt]

theorem initialContributions_sumAt (m : DecompModel) (groups : Groups) (t : ℕ) :
    sumAt (initialContributions m groups) t
      = (groups.map (fun p => contribTerm m p.1 t)).sum := by
  suffices h : ∀ acc : SeriesMap,
      sumAt (groups.foldl (initStep m) acc) t
        = sumAt acc t + (groups.map (fun p => contribTerm m p.1 t)).sum by
    simpa [initialContributions, sumAt] using h []
  induction groups with
  | nil => intro acc; simp
  | cons p rest ih =>
    intro acc
    rw [List.foldl_cons, ih, sumAt_initStep]
    simp only [List.map_cons, List.sum_cons]
    ring

theorem contrib_sum_eq_predict (m : DecompModel) (groups : Groups) (t : ℕ)
    (hk : m.params.map Prod.fst = "const" :: m.features)
    (hnd : (m.params.map Prod.fst).Nodup)
    (hgnd : (groups.map Prod.fst).Nodup)
    (hcov : ∀ v ∈ m.params.map Prod.fst, v ∈ groups.map Prod.fst)
    (hdata : ∀ f ∈ m.features, hasKey m.data f = true) :
    (groups.map (fun p => contribTerm m p.1 t)).sum = predictSeries m t := by
  have hall : m.features.all (fun f => hasKey m.data f) = true :=
    List.all_eq_true.mpr hdata
  have hpred : predictSeries m t = (m.params.map (fun p =>
      p.2 * (if p.1 = "const" then 1
             else ((findVal m.data p.1).getD (fun _ => 0)) t))).sum := by
    unfold predictSeries
    rw [if_pos ⟨hall, hk⟩]
  rw [hpred]
  have h1 : (groups.map (fun p => contribTerm m p.1 t)).sum
      = ((groups.map Prod.fst).map (fun v => contribTerm m v t)).sum := by
    rw [List.map_map]
    rfl
  have h2 : ((groups.map Prod.fst).map (fun v => contribTerm m v t)).sum
      = (groups.map Prod.fst).toFinset.sum (fun v => contribTerm m v t) :=
    (List.sum_toFinset _ hgnd).symm
  have hsub : (m.params.map Prod.fst).toFinset ⊆ (groups.map Prod.fst).toFinset := by
    intro x hx
    rw [List.mem_toFinset] at hx ⊢
    exact hcov x hx
  have hzero : ∀ x ∈ (groups.map Prod.fst).toFinset,
      x ∉ (m.params.map Prod.fst).toFinset → contribTerm m x t = 0 := by
    intro x _ hx
    rw [List.mem_toFinset] at hx
    unfold contribTerm
    rw [findVal_eq_none_of_not_mem hx]
  have h3 : (groups.map Prod.fst).toFinset.sum (fun v => contribTerm m v t)
      = (m.params.map Prod.fst).toFinset.sum (fun v => contribTerm m v t) :=
    (Finset.sum_subset hsub hzero).symm
  have h4 : (m.params.map Prod.fst).toFinset.sum (fun v => contribTerm m v t)
      = ((m.params.map Prod.fst).map (fun v => contribTerm m v t)).sum :=
    List.sum_toFinset _ hnd
  rw [h1, h2, h3, h4, List.map_map]
  refine congrArg List.sum (List.map_congr_left ?_)
  intro p hp
  have hfv : findVal m.params p.1 = some p.2 :=
    findVal_eq_some_of_mem_of_nodup (by simpa using hp) hnd
  simp only [Function.comp_apply]
  unfold contribTerm
  simp only [hfv]
  by_cases hconst : p.1 = "const"
  · rw [if_pos hconst, if_pos hconst, mul_one]
  · rw [if_neg hconst, if_neg hconst]
    have hpf : p.1 ∈ m.params.map Prod.fst :=
      List.mem_map.mpr ⟨p, hp, rfl⟩
    rw [hk] at hpf
    rcases List.mem_cons.mp hpf with h | h
    · exact absurd h hconst
    · have hhk := hdata p.1 h
      rw [hasKey] at hhk
      rcases hd : findVal m.data p.1 with _ | col
      · rw [hd] at hhk
        simp at hhk
      · simp only [hd, Option.getD_some]

theorem compStep_fold_sumAt (w : String) (wc : Series) (total : ℚ)
    (comps : List (String × ℚ)) (t : ℕ) :
    ∀ acc : SeriesMap × Groups,
      sumAt ((comps.foldl (compStep w wc total) acc).1) t
        = sumAt acc.1 t + (comps.map (fun c => wc t * (c.2 / total))).sum := by
  induction comps with
  | nil => intro acc; simp
  | cons c rest ih =>
    intro acc
    rw [List.foldl_cons, ih]
    simp only [List.map_cons, List.sum_cons, compStep, sumAt_addEntry]
    ring

theorem map_share_sum (comps : List (String × ℚ)) (a total : ℚ) :
    (comps.map (fun c => a * (c.2 / total))).sum
      = a / total * (comps.map Prod.snd).sum := by
  induction comps with
  | nil => simp
  | cons c rest ih =>
    simp only [List.map_cons, List.sum_cons, ih]
    ring

theorem expandStep_none (acc : SeriesMap × Groups)
    (w : String × List (String × ℚ)) (hfv : findVal acc.1 w.1 = none) :
    expandStep acc w = acc := by
  unfold expandStep
  rw [hfv]

theorem expandStep_some (acc : SeriesMap × Groups)
    (w : String × List (String × ℚ)) (wc : Series)
    (hfv : findVal acc.1 w.1 = some wc) :
    expandStep acc w =
      if 0 < (w.2.map (fun c => |c.2|)).sum then
        w.2.foldl (compStep w.1 wc ((w.2.map (fun c => |c.2|)).sum))
          (eraseKey acc.1 w.1, acc.2)
      else acc := by
  unfold expandStep
  rw [hfv]

theorem expandStep_sumAt (acc : SeriesMap × Groups)
    (w : String × List (String × ℚ)) (t : ℕ)
    (hW : (w.2.map Prod.snd).sum = (w.2.map (fun c => |c.2|)).sum) :
    sumAt (expandStep acc w).1 t = sumAt acc.1 t := by
  rcases hfv : findVal acc.1 w.1 with _ | wc
  · rw [expandStep_none acc w hfv]
  · rw [expandStep_some acc w wc hfv]
    by_cases h0 : (0 : ℚ) < (w.2.map (fun c => |c.2|)).sum
    · rw [if_pos h0, compStep_fold_sumAt]
      have h1 : sumAt (eraseKey acc.1 w.1, acc.2).1 t = sumAt acc.1 t - wc t :=
        sumAt_eraseKey hfv t
      rw [h1, map_share_sum, ← hW]
      have h2 : (w.2.map Prod.snd).sum ≠ 0 := by
        rw [hW]
        exact ne_of_gt h0
      field_simp
    · rw [if_neg h0]

theorem expandWeighted_sumAt (m : DecompModel) (vc : SeriesMap) (gs : Groups)
    (t : ℕ)
    (hW : ∀ p ∈ m.wgtd_variables,
      (p.2.map Prod.snd).sum = (p.2.map (fun c => |c.2|)).sum) :
    sumAt (expandWeighted m vc gs).1 t = sumAt vc t := by
  unfold expandWeighted
  suffices h : ∀ (ws : List (String × List (String × ℚ))),
      (∀ p ∈ ws, (p.2.map Prod.snd).sum = (p.2.map (fun c => |c.2|)).sum) →
      ∀ acc : SeriesMap × Groups,
        sumAt ((ws.foldl expandStep acc).1) t = sumAt acc.1 t by
    exact h m.wgtd_variables hW (vc, gs)
  intro ws hws
  induction ws with
  | nil => intro acc; rfl
  | cons w rest ih =>
    intro acc
    rw [List.foldl_cons]
    rw [ih (fun p hp => hws p (List.mem_cons_of_mem _ hp))]
    exact expandStep_sumAt acc w t (hws w (List.mem_cons_self _ _))

/-- Every key of the contribution dict has a group assignment. -/
def keysSub (vc : SeriesMap) (gs : Groups) : Prop :=
  ∀ v, hasKey vc v = true → hasKey gs v = true

theorem compStep_gs_mono (w : String) (wc : Series) (total : ℚ)
    (acc : SeriesMap × Groups) (c : String × ℚ) {v : String}
    (h : hasKey acc.2 v = true) :
    hasKey (compStep w wc total acc c).2 v = true := by
  unfold compStep
  by_cases hc : hasKey acc.2 c.1 = true
  · simpa [hc] using h
  · simp only [Bool.not_eq_true] at hc
    rcases hfv : findVal acc.2 w with _ | gi
    · simpa [hc, hfv] using h
    · simp only [hc, hfv]
      simp only [Bool.false_eq_true, if_false]
      exact hasKey_append_of_left _ h

theorem compStep_inv (w : String) (wc : Series) (total : ℚ)
    (acc : SeriesMap × Groups) (c : String × ℚ)
    (hw : hasKey acc.2 w = true) (hks : keysSub acc.1 acc.2) :
    keysSub (compStep w wc total acc c).1 (compStep w wc total acc c).2
      ∧ hasKey (compStep w wc total acc c).2 w = true := by
  refine ⟨?_, compStep_gs_mono w wc total acc c hw⟩
  intro v hv
  have helim := @hasKey_addEntry_elim acc.1 c.1 v
    (fun t => wc t * (c.2 / total)) hv
  rcases helim with h | h
  · subst h
    unfold compStep
    by_cases hc : hasKey acc.2 c.1 = true
    · simp [hc]
    · simp only [Bool.not_eq_true] at hc
      rcases hfv : findVal acc.2 w with _ | gi
      · rw [hasKey, hfv] at hw
        simp at hw
      · simp only [hc, hfv, Bool.false_eq_true, if_false]
        exact hasKey_append_single_self _ _ _
  · exact compStep_gs_mono w wc total acc c (hks v h)

theorem compStep_fold_inv (w : String) (wc : Series) (total : ℚ)
    (comps : List (String × ℚ)) :
    ∀ acc : SeriesMap × Groups, hasKey acc.2 w = true → keysSub acc.1 acc.2 →
      keysSub ((comps.foldl (compStep w wc total) acc)).1
        ((comps.foldl (compStep w wc total) acc)).2 := by
  induction comps with
  | nil => intro acc _ hks; exact hks
  | cons c rest ih =>
    intro acc hw hks
    rw [List.foldl_cons]
    obtain ⟨h1, h2⟩ := compStep_inv w wc total acc c hw hks
    exact ih _ h2 h1

theorem expandStep_inv (acc : SeriesMap × Groups)
    (w : String × List (String × ℚ)) (hks : keysSub acc.1 acc.2) :
    keysSub (expandStep acc w).1 (expandStep acc w).2 := by
  rcases hfv : findVal acc.1 w.1 with _ | wc
  · rw [expandStep_none acc w hfv]
    exact hks
  · rw [expandStep_some acc w wc hfv]
    by_cases h0 : (0 : ℚ) < (w.2.map (fun c => |c.2|)).sum
    · rw [if_pos h0]
      have hw : hasKey acc.2 w.1 = true := by
        refine hks w.1 ?_
        rw [hasKey, hfv]
        rfl
      refine compStep_fold_inv w.1 wc _ w.2 (eraseKey acc.1 w.1, acc.2) hw ?_
      intro v hv
      exact hks v (hasKey_eraseKey_elim hv)
    · rw [if_neg h0]
      exact hks

theorem expandWeighted_inv (m : DecompModel) (vc : SeriesMap) (gs : Groups)
    (hks : keysSub vc gs) :
    keysSub (expandWeighted m vc gs).1 (expandWeighted m vc gs).2 := by
  unfold expandWeighted
  suffices h : ∀ (ws : List (String × List (String × ℚ)))
      (acc : SeriesMap × Groups), keysSub acc.1 acc.2 →
      keysSub ((ws.foldl expandStep acc)).1 ((ws.foldl expandStep acc)).2 by
    exact h m.wgtd_variables (vc, gs) hks
  intro ws
  induction ws with
  | nil => intro acc h; exact h
  | cons w rest ih =>
    intro acc h
    rw [List.foldl_cons]
    exact ih _ (expandStep_inv acc w h)

theorem sumAt_ensureGroup (gc : SeriesMap) (g : String) (t : ℕ) :
    sumAt (ensureGroup gc g) t = sumAt gc t := by
  unfold ensureGroup
  by_cases h : hasKey gc g = true
  · rw [if_pos h]
  · simp only [Bool.not_eq_true] at h
    simp [h, sumAt_append, sumAt]

theorem groupStep_none (n : ℕ) (gs : Groups)
    (acc : SeriesMap × List (String × ℚ)) (p : String × Series)
    (h : findVal gs p.1 = none) : groupStep n gs acc p = acc := by
  unfold groupStep
  rw [h]

theorem groupStep_some (n : ℕ) (gs : Groups)
    (acc : SeriesMap × List (String × ℚ)) (p : String × Series)
    (gi : GroupInfo) (h : findVal gs p.1 = some gi) :
    groupStep n gs acc p =
      if gi.adjustment = "Min" then
        (addEntry (ensureGroup acc.1 gi.group) gi.group
          (fun t => p.2 t - minObs n p.2), acc.2 ++ [(p.1, minObs n p.2)])
      else if gi.adjustment = "Max" then
        (addEntry (ensureGroup acc.1 gi.group) gi.group
          (fun t => p.2 t - maxObs n p.2), acc.2 ++ [(p.1, maxObs n p.2)])
      else (addEntry (ensureGroup acc.1 gi.group) gi.group p.2, acc.2) := by
  unfold groupStep
  rw [h]

theorem groupStep_invariant (n : ℕ) (gs : Groups)
    (acc : SeriesMap × List (String × ℚ)) (p : String × Series) (t : ℕ)
    (hg : hasKey gs p.1 = true) :
    sumAt (groupStep n gs acc p).1 t
        + ((groupStep n gs acc p).2.map Prod.snd).sum
      = sumAt acc.1 t + (acc.2.map Prod.snd).sum + p.2 t := by
  rcases hfv : findVal gs p.1 with _ | gi
  · rw [hasKey, hfv] at hg
    simp at hg
  · rw [groupStep_some n gs acc p gi hfv]
    by_cases hmin : gi.adjustment = "Min"
    · simp only [if_pos hmin, sumAt_addEntry, sumAt_ensureGroup,
        List.map_append, List.sum_append]
      simp
      ring
    · rw [if_neg hmin]
      by_cases hmax : gi.adjustment = "Max"
      · simp only [if_pos hmax, sumAt_addEntry, sumAt_ensureGroup,
          List.map_append, List.sum_append]
        simp
        ring
      · simp only [if_neg hmax, sumAt_addEntry, sumAt_ensureGroup]
        ring

theorem groupContributions_sumAt (n : ℕ) (vc : SeriesMap) (gs : Groups) (t : ℕ)
    (hcov : ∀ p ∈ vc, hasKey gs p.1 = true) :
    sumAt (groupContributions n vc gs).1 t
        + ((groupContributions n vc gs).2.map Prod.snd).sum
      = sumAt vc t := by
  unfold groupContributions
  suffices h : ∀ (l : List (String × Series)),
      (∀ p ∈ l, hasKey gs p.1 = true) →
      ∀ acc : SeriesMap × List (String × ℚ),
      sumAt (l.foldl (groupStep n gs) acc).1 t
          + ((l.foldl (groupStep n gs) acc).2.map Prod.snd).sum
        = sumAt acc.1 t + (acc.2.map Prod.snd).sum + sumAt l t by
    simpa [sumAt] using h vc hcov ([], [])
  intro l
  induction l with
  | nil => intro _ acc; simp [sumAt]
  | cons p rest ih =>
    intro hl acc
    have hrest : ∀ q ∈ rest, hasKey gs q.1 = true :=
      fun q hq => hl q (List.mem_cons_of_mem _ hq)
    rw [List.foldl_cons, ih hrest,
      groupStep_invariant n gs acc p t (hl p (List.mem_cons_self _ _))]
    simp only [sumAt, List.map_cons, List.sum_cons]
    ring

theorem initStep_keys {m : DecompModel} {acc : SeriesMap}
    {p : String × GroupInfo} {v : String}
    (h : hasKey (initStep m acc p) v = true) :
    hasKey acc v = true ∨ v = p.1 := by
  unfold initStep at h
  rcases hfv : findVal m.params p.1 with _ | coef
  · rw [hfv] at h
    exact Or.inl h
  · simp only [hfv] at h
    by_cases hconst : p.1 = "const"
    · rw [if_pos hconst] at h
      rw [hasKey_iff_mem] at h
      simp only [List.map_append, List.mem_append] at h
      rcases h with h | h
      · exact Or.inl (hasKey_iff_mem.mpr h)
      · simp at h
        exact Or.inr h
    · rw [if_neg hconst] at h
      rcases hfd : findVal m.data p.1 with _ | col
      · rw [hfd] at h
        exact Or.inl h
      · simp only [hfd] at h
        rw [hasKey_iff_mem] at h
        simp only [List.map_append, List.mem_append] at h
        rcases h with h | h
        · exact Or.inl (hasKey_iff_mem.mpr h)
        · simp at h
          exact Or.inr h

theorem initialContributions_keysSub (m : DecompModel) (groups : Groups) :
    keysSub (initialContributions m groups) groups := by
  unfold initialContributions
  suffices h : ∀ (l : Groups) (acc : SeriesMap) (v : String),
      hasKey (l.foldl (initStep m) acc) v = true →
      hasKey acc v = true ∨ v ∈ l.map Prod.fst by
    intro v hv
    rcases h groups [] v hv with h2 | h2
    · simp [hasKey, findVal] at h2
    · exact hasKey_iff_mem.mpr h2
  intro l
  induction l with
  | nil => intro acc v hv; exact Or.inl hv
  | cons p rest ih =>
    intro acc v hv
    rw [List.foldl_cons] at hv
    rcases ih _ v hv with h2 | h2
    · rcases initStep_keys h2 with h3 | h3
      · exact Or.inl h3
      · exact Or.inr (by simp [h3])
    · exact Or.inr (List.mem_cons_of_mem _ h2)

/-- The grouped contributions plus the recorded adjustment scalars sum
to the prediction at every timestep, for a covering group assignment and
conserving weighted variables. -/
theorem decompGrouped_sumAt (m : DecompModel) (groups : Groups) (t : ℕ)
    (hk : m.params.map Prod.fst = "const" :: m.features)
    (hnd : (m.params.map Prod.fst).Nodup)
    (hgnd : (groups.map Prod.fst).Nodup)
    (hcov : ∀ v ∈ m.params.map Prod.fst, v ∈ groups.map Prod.fst)
    (hdata : ∀ f ∈ m.features, hasKey m.data f = true)
    (hW : ∀ p ∈ m.wgtd_variables,
      (p.2.map Prod.snd).sum = (p.2.map (fun c => |c.2|)).sum) :
    sumAt (decompGrouped m groups).1 t
        + ((decompGrouped m groups).2.map Prod.snd).sum
      = predictSeries m t := by
  have hvc0 : sumAt (initialContributions m groups) t = predictSeries m t := by
    rw [initialContributions_sumAt,
      contrib_sum_eq_predict m groups t hk hnd hgnd hcov hdata]
  have hexs : sumAt (expandWeighted m (initialContributions m groups) groups).1 t
      = predictSeries m t := by
    rw [expandWeighted_sumAt m _ _ t hW, hvc0]
  have hksx : keysSub (expandWeighted m (initialContributions m groups) groups).1
      (expandWeighted m (initialContributions m groups) groups).2 :=
    expandWeighted_inv m _ _ (initialContributions_keysSub m groups)
  show sumAt (groupContributions m.n
        (expandWeighted m (initialContributions m groups) groups).1
        (expandWeighted m (initialContributions m groups) groups).2).1 t
      + ((groupContributions m.n
        (expandWeighted m (initialContributions m groups) groups).1
        (expandWeighted m (initialContributions m groups) groups).2).2.map
          Prod.snd).sum
    = predictSeries m t
  rw [groupContributions_sumAt _ _ _ t
    (fun p hp => hksx p.1 (hasKey_of_mem hp))]
  exact hexs

/-- C1 (amended): for a fitted model and a group assignment that covers
the fitted variables (the intercept `'const'` and every feature), with
every feature present in the data, the decomposition satisfies the
conservation law `Σ_g output[g][t] = Predicted[t]` at every timestamp —
**provided** every registered weighted variable's component coefficients
satisfy `Σ coef = Σ |coef|` (e.g. all non-negative), and, whenever any
MIN/MAX adjustment was recorded, some variable is grouped into `"Base"`.
The equality is exact in the idealized rational arithmetic, hence within
the claimed `1e-6`.  Without the two provisos conservation fails
(`decomposition_conservation_counterexample`,
`weighted_expansion_not_conserving`). -/
theorem decomposition_conservation (m : DecompModel) (groups : Groups)
    (hk : m.params.map Prod.fst = "const" :: m.features)
    (hnd : (m.params.map Prod.fst).Nodup)
    (hgnd : (groups.map Prod.fst).Nodup)
    (hcov : ∀ v ∈ m.params.map Prod.fst, v ∈ groups.map Prod.fst)
    (hdata : ∀ f ∈ m.features, hasKey m.data f = true)
    (hW : ∀ p ∈ m.wgtd_variables,
      (p.2.map Prod.snd).sum = (p.2.map (fun c => |c.2|)).sum)
    (hBase : (decompGrouped m groups).2 ≠ [] →
      hasKey (decompGrouped m groups).1 "Base" = true) :
    ∀ t < m.n, sumAt (calculate_decomposition m groups).groupCols t
      = (calculate_decomposition m groups).predicted t := by
  intro t ht
  have hgrp := decompGrouped_sumAt m groups t hk hnd hgnd hcov hdata hW
  show sumAt (addBaseAdjustment m.n (decompGrouped m groups).1
      (decompGrouped m groups).2) t = predictSeries m t
  by_cases hadv : (decompGrouped m groups).2 = []
  · have hnoop : addBaseAdjustment m.n (decompGrouped m groups).1
        (decompGrouped m groups).2 = (decompGrouped m groups).1 := by
      unfold addBaseAdjustment
      rw [if_neg]
      rintro ⟨_, h2⟩
      exact h2 hadv
    rw [hnoop]
    have : ((decompGrouped m groups).2.map Prod.snd).sum = 0 := by
      rw [hadv]
      rfl
    linarith [hgrp]
  · have hbk := hBase hadv
    unfold addBaseAdjustment
    rw [if_pos ⟨hbk, hadv⟩,
      sumAt_updateVal_add (decompGrouped m groups).1 "Base" _ m.n hbk ht]
    linarith [hgrp]

/-- Concrete model for the C1 witness: two observations, one feature, a
`Min`-adjusted variable and a `"Base"` group. -/
def modelW1 : DecompModel :=
  { n := 2, kpi := "y", features := ["x"],
    params := [("const", 1), ("x", 2)],
    data := [("y", fun _ => 9), ("x", fun t => (t : ℚ) + 1)],
    wgtd_variables := [], fittedFallback := fun _ => 0 }

/-- Concrete group assignment for the C1 witness. -/
def groupsW1 : Groups := [("const", ⟨"Base", ""⟩), ("x", ⟨"Media", "Min"⟩)]

/-- Witness for `decomposition_conservation` at a concrete model and
group assignment. -/
theorem decomposition_conservation_witness :
    modelW1.params.map Prod.fst = "const" :: modelW1.features ∧
    (∀ v ∈ modelW1.params.map Prod.fst, v ∈ groupsW1.map Prod.fst) ∧
    (∀ t < modelW1.n, sumAt (calculate_decomposition modelW1 groupsW1).groupCols t
      = (calculate_decomposition modelW1 groupsW1).predicted t) :=
  ⟨by decide, by decide,
    decomposition_conservation modelW1 groupsW1 (by decide) (by decide)
      (by decide) (by decide) (by decide) (by decide) (by decide)⟩

/-- Concrete model for the C1 and C6 counterexamples: one observation,
one feature whose group assignment carries a `Min` adjustment, and no
variable assigned to a `"Base"` group. -/
def modelCex : DecompModel :=
  { n := 1, kpi := "y", features := ["x"],
    params := [("const", 2), ("x", 3)],
    data := [("y", fun _ => 9), ("x", fun _ => 1)],
    wgtd_variables := [], fittedFallback := fun _ => 0 }

/-- Concrete no-`"Base"` group assignment for the C1 and C6
counterexamples. -/
def groupsCex : Groups := [("const", ⟨"Other", ""⟩), ("x", ⟨"Media", "Min"⟩)]

/-- Counterexample to C1 as stated: with a `Min`-adjusted variable and no
`"Base"` group, the groups sum to `2` while the prediction is `5` at
`t = 0` — the recorded adjustment scalar is dropped and conservation
fails by `3`, far beyond the claimed `1e-6` tolerance. -/
theorem decomposition_conservation_counterexample :
    |sumAt (calculate_decomposition modelCex groupsCex).groupCols 0
      - (calculate_decomposition modelCex groupsCex).predicted 0|
      > 1 / 1000000 := by
  have h1 : sumAt (calculate_decomposition modelCex groupsCex).groupCols 0 = 2 := by
    simp [calculate_decomposition, decompGrouped, initialContributions,
      initStep, expandWeighted, groupContributions, groupStep, ensureGroup,
      addBaseAdjustment, addEntry, sumAt, minObs, listMin, findVal, hasKey,
      modelCex, groupsCex, List.range_succ]
  have h2 : (calculate_decomposition modelCex groupsCex).predicted 0 = 5 := by
    simp [calculate_decomposition, predictSeries, findVal, hasKey,
      modelCex, groupsCex]
    norm_num
  rw [h1, h2]
  norm_num

/-- C2 (amended): the weighted-variable expansion gives each component
`c` the share `contribution[w] × (C[c] / Σ_c |C[c]|)` and deletes
`contribution[w]`, so the expanded contributions re-sum, at every
timestep, to the *scaled* series
`contribution[w] × (Σ_c C[c]) / (Σ_c |C[c]|)` — equal to the composite's
own unexpanded contribution only when `Σ_c C[c] = Σ_c |C[c]|` (e.g. all
component coefficients non-negative).  In particular the +2/−1 composite
re-sums to exactly one third of the undecomposed contribution series,
not to the series itself. -/
theorem weighted_expansion_share_sum (acc : SeriesMap × Groups)
    (w : String × List (String × ℚ)) (wc : Series) (t : ℕ)
    (hfv : findVal acc.1 w.1 = some wc)
    (h0 : (0 : ℚ) < (w.2.map (fun c => |c.2|)).sum) :
    sumAt (expandStep acc w).1 t
      = sumAt acc.1 t - wc t
        + wc t * ((w.2.map Prod.snd).sum / (w.2.map (fun c => |c.2|)).sum) := by
  rw [expandStep_some acc w wc hfv, if_pos h0, compStep_fold_sumAt]
  have h1 : sumAt (eraseKey acc.1 w.1, acc.2).1 t = sumAt acc.1 t - wc t :=
    sumAt_eraseKey hfv t
  rw [h1, map_share_sum]
  ring

/-- The weighted-variable registry used by the C2 witness and
counterexample: one composite `"w"` with components `+2` and `−1`. -/
def wgtdCex : List (String × List (String × ℚ)) := [("w", [("a", 2), ("b", -1)])]

/-- Decomposition-model wrapper around `wgtdCex` (only the
`wgtd_variables` field matters to the expansion step). -/
def modelWgtd : DecompModel :=
  { n := 1, kpi := "y", features := ["w"],
    params := [("const", 0), ("w", 1)],
    data := [("y", fun _ => 0), ("w", fun _ => 3)],
    wgtd_variables := wgtdCex, fittedFallback := fun _ => 0 }

/-- Witness for `weighted_expansion_share_sum` at the concrete +2/−1
composite. -/
theorem weighted_expansion_share_sum_witness :
    findVal [("w", (fun _ => 3 : Series))] "w" = some (fun _ => 3 : Series) ∧
    sumAt (expandStep ([("w", (fun _ => 3 : Series))], [("w", ⟨"G", ""⟩)])
        ("w", [("a", 2), ("b", -1)])).1 0
      = sumAt [("w", (fun _ => 3 : Series))] 0 - (fun _ => (3 : ℚ)) 0
        + (fun _ => (3 : ℚ)) 0
          * (([(("a" : String), (2 : ℚ)), ("b", -1)].map Prod.snd).sum
            / ([(("a" : String), (2 : ℚ)), ("b", -1)].map (fun c => |c.2|)).sum) :=
  ⟨by simp [findVal],
    weighted_expansion_share_sum ([("w", fun _ => 3)], [("w", ⟨"G", ""⟩)])
      ("w", [("a", 2), ("b", -1)]) (fun _ => 3) 0
      (by simp [findVal]) (by norm_num)⟩

/-- Counterexample to C2 as stated: expanding the +2/−1 composite whose
contribution is the constant series `3` leaves component contributions
summing to `1`, not `3` — the expansion does not conserve the composite's
unexpanded contribution. -/
theorem weighted_expansion_not_conserving :
    sumAt (expandWeighted modelWgtd [("w", fun _ => 3)] [("w", ⟨"G", ""⟩)]).1 0
      = 1 ∧
    sumAt [("w", (fun _ => 3 : Series))] 0 = 3 ∧ (1 : ℚ) ≠ 3 := by
  refine ⟨?_, by simp [sumAt], by norm_num⟩
  simp [expandWeighted, expandStep, compStep, modelWgtd, wgtdCex, addEntry,
    eraseKey, findVal, hasKey, sumAt]
  norm_num

/-- Every group info of `gs1` already occurs as the info of some entry of
`gs2` (inherited infos are copies of existing ones). -/
def infosSub (gs1 gs2 : Groups) : Prop :=
  ∀ q ∈ gs1, ∃ q0 ∈ gs2, q0.2 = q.2

theorem compStep_infosSub (w : String) (wc : Series) (total : ℚ)
    (acc : SeriesMap × Groups) (c : String × ℚ) (base : Groups)
    (h : infosSub acc.2 base) :
    infosSub (compStep w wc total acc c).2 base := by
  unfold compStep
  by_cases hc : hasKey acc.2 c.1 = true
  · simpa [hc] using h
  · simp only [Bool.not_eq_true] at hc
    rcases hfv : findVal acc.2 w with _ | gi
    · simpa [hc, hfv] using h
    · simp only [hc, hfv, Bool.false_eq_true, if_false]
      intro q hq
      rcases List.mem_append.mp hq with h2 | h2
      · exact h q h2
      · simp only [List.mem_singleton] at h2
        subst h2
        exact h (w, gi) (findVal_mem hfv)

theorem compStep_fold_infosSub (w : String) (wc : Series) (total : ℚ)
    (comps : List (String × ℚ)) (base : Groups) :
    ∀ acc : SeriesMap × Groups, infosSub acc.2 base →
      infosSub ((comps.foldl (compStep w wc total) acc)).2 base := by
  induction comps with
  | nil => intro acc h; exact h
  | cons c rest ih =>
    intro acc h
    rw [List.foldl_cons]
    exact ih _ (compStep_infosSub w wc total acc c base h)

theorem expandStep_infosSub (acc : SeriesMap × Groups)
    (w : String × List (String × ℚ)) (base : Groups)
    (h : infosSub acc.2 base) :
    infosSub (expandStep acc w).2 base := by
  rcases hfv : findVal acc.1 w.1 with _ | wc
  · rw [expandStep_none acc w hfv]
    exact h
  · rw [expandStep_some acc w wc hfv]
    by_cases h0 : (0 : ℚ) < (w.2.map (fun c => |c.2|)).sum
    · rw [if_pos h0]
      exact compStep_fold_infosSub w.1 wc _ w.2 base (eraseKey acc.1 w.1, acc.2) h
    · rw [if_neg h0]
      exact h

theorem expandWeighted_infosSub (m : DecompModel) (vc : SeriesMap) (gs : Groups) :
    infosSub (expandWeighted m vc gs).2 gs := by
  unfold expandWeighted
  suffices h : ∀ (ws : List (String × List (String × ℚ)))
      (acc : SeriesMap × Groups), infosSub acc.2 gs →
      infosSub ((ws.foldl expandStep acc)).2 gs by
    exact h m.wgtd_variables (vc, gs) (fun q hq => ⟨q, hq, rfl⟩)
  intro ws
  induction ws with
  | nil => intro acc h; exact h
  | cons w rest ih =>
    intro acc h
    rw [List.foldl_cons]
    exact ih _ (expandStep_infosSub acc w gs h)

theorem hasKey_ensureGroup_elim {gc : SeriesMap} {g v : String}
    (h : hasKey (ensureGroup gc g) v = true) :
    hasKey gc v = true ∨ v = g := by
  unfold ensureGroup at h
  by_cases hg : hasKey gc g = true
  · rw [if_pos hg] at h
    exact Or.inl h
  · simp only [Bool.not_eq_true] at hg
    rw [hg] at h
    simp only [Bool.false_eq_true, if_false] at h
    rw [hasKey_iff_mem] at h
    simp only [List.map_append, List.mem_append] at h
    rcases h with h | h
    · exact Or.inl (hasKey_iff_mem.mpr h)
    · simp at h
      exact Or.inr h

theorem groupStep_group_keys {n : ℕ} {gs : Groups}
    {acc : SeriesMap × List (String × ℚ)} {p : String × Series} {g : String}
    (h : hasKey (groupStep n gs acc p).1 g = true) :
    hasKey acc.1 g = true ∨ ∃ q ∈ gs, q.2.group = g := by
  rcases hfv : findVal gs p.1 with _ | gi
  · rw [groupStep_none n gs acc p hfv] at h
    exact Or.inl h
  · rw [groupStep_some n gs acc p gi hfv] at h
    have hmem : (p.1, gi) ∈ gs := findVal_mem hfv
    have helim : hasKey (addEntry (ensureGroup acc.1 gi.group) gi.group
        (fun t => p.2 t - minObs n p.2)) g = true ∨
        hasKey (addEntry (ensureGroup acc.1 gi.group) gi.group
        (fun t => p.2 t - maxObs n p.2)) g = true ∨
        hasKey (addEntry (ensureGroup acc.1 gi.group) gi.group p.2) g = true := by
      by_cases hmin : gi.adjustment = "Min"
      · rw [if_pos hmin] at h
        exact Or.inl h
      · rw [if_neg hmin] at h
        by_cases hmax : gi.adjustment = "Max"
        · rw [if_pos hmax] at h
          exact Or.inr (Or.inl h)
        · rw [if_neg hmax] at h
          exact Or.inr (Or.inr h)
    have hkey : g = gi.group ∨ hasKey acc.1 g = true := by
      rcases helim with h2 | h2 | h2 <;>
        · rcases hasKey_addEntry_elim h2 with h3 | h3
          · exact Or.inl h3
          · rcases hasKey_ensureGroup_elim h3 with h4 | h4
            · exact Or.inr h4
            · exact Or.inl h4
    rcases hkey with h2 | h2
    · exact Or.inr ⟨(p.1, gi), hmem, h2.symm⟩
    · exact Or.inl h2

theorem groupContributions_group_keys {n : ℕ} {vc : SeriesMap} {gs : Groups}
    {g : String} (h : hasKey (groupContributions n vc gs).1 g = true) :
    ∃ q ∈ gs, q.2.group = g := by
  unfold groupContributions at h
  suffices hh : ∀ (l : List (String × Series))
      (acc : SeriesMap × List (String × ℚ)),
      hasKey (l.foldl (groupStep n gs) acc).1 g = true →
      hasKey acc.1 g = true ∨ ∃ q ∈ gs, q.2.group = g by
    rcases hh vc ([], []) h with h2 | h2
    · simp [hasKey, findVal] at h2
    · exact h2
  intro l
  induction l with
  | nil => intro acc hv; exact Or.inl hv
  | cons p rest ih =>
    intro acc hv
    rw [List.foldl_cons] at hv
    rcases ih _ hv with h2 | h2
    · exact groupStep_group_keys h2
    · exact Or.inr h2

/-- C6 (amended): the sum of the recorded MIN/MAX adjustment scalars is
added into the `"Base"` group's series only when a `"Base"` group already
exists among the grouped contributions.  When no variable of the group
assignment is assigned to `"Base"`, no implicit `"Base"` group is created
— the output has no `"Base"` column — and the adjustment amounts are
dropped: the group columns sum to the prediction *minus* the total
recorded adjustment at every timestep. -/
theorem adjustments_dropped_without_base (m : DecompModel) (groups : Groups)
    (hk : m.params.map Prod.fst = "const" :: m.features)
    (hnd : (m.params.map Prod.fst).Nodup)
    (hgnd : (groups.map Prod.fst).Nodup)
    (hcov : ∀ v ∈ m.params.map Prod.fst, v ∈ groups.map Prod.fst)
    (hdata : ∀ f ∈ m.features, hasKey m.data f = true)
    (hW : ∀ p ∈ m.wgtd_variables,
      (p.2.map Prod.snd).sum = (p.2.map (fun c => |c.2|)).sum)
    (hNoBase : ∀ q ∈ groups, q.2.group ≠ "Base") :
    hasKey (calculate_decomposition m groups).groupCols "Base" = false ∧
    ∀ t < m.n, sumAt (calculate_decomposition m groups).groupCols t
      = (calculate_decomposition m groups).predicted t
        - ((decompGrouped m groups).2.map Prod.snd).sum := by
  have hnb : hasKey (decompGrouped m groups).1 "Base" = false := by
    by_contra hcon
    rw [Bool.not_eq_false] at hcon
    have h2 : ∃ q ∈ (expandWeighted m (initialContributions m groups) groups).2,
        q.2.group = "Base" := groupContributions_group_keys hcon
    obtain ⟨q, hq, hqg⟩ := h2
    obtain ⟨q0, hq0, hq02⟩ := expandWeighted_infosSub m
      (initialContributions m groups) groups q hq
    exact hNoBase q0 hq0 (by rw [hq02, hqg])
  have hnoop : addBaseAdjustment m.n (decompGrouped m groups).1
      (decompGrouped m groups).2 = (decompGrouped m groups).1 := by
    unfold addBaseAdjustment
    rw [if_neg]
    rintro ⟨h1, _⟩
    rw [hnb] at h1
    exact Bool.false_ne_true h1
  constructor
  · show hasKey (addBaseAdjustment m.n (decompGrouped m groups).1
      (decompGrouped m groups).2) "Base" = false
    rw [hnoop]
    exact hnb
  · intro t ht
    have hgrp := decompGrouped_sumAt m groups t hk hnd hgnd hcov hdata hW
    show sumAt (addBaseAdjustment m.n (decompGrouped m groups).1
      (decompGrouped m groups).2) t = predictSeries m t
        - ((decompGrouped m groups).2.map Prod.snd).sum
    rw [hnoop]
    linarith [hgrp]

/-- Witness for `adjustments_dropped_without_base` at the concrete
no-`"Base"` model. -/
theorem adjustments_dropped_without_base_witness :
    (∀ q ∈ groupsCex, q.2.group ≠ "Base") ∧
    (hasKey (calculate_decomposition modelCex groupsCex).groupCols "Base" = false ∧
     ∀ t < modelCex.n,
       sumAt (calculate_decomposition modelCex groupsCex).groupCols t
         = (calculate_decomposition modelCex groupsCex).predicted t
           - ((decompGrouped modelCex groupsCex).2.map Prod.snd).sum) :=
  ⟨by decide,
    adjustments_dropped_without_base modelCex groupsCex (by decide) (by decide)
      (by decide) (by decide) (by decide) (by decide) (by decide)⟩

/-- Counterexample to C6 as stated: with a recorded `Min` adjustment and
no `"Base"` group in the caller's assignment, the output contains no
`"Base"` column at all — no implicit zero-baseline `"Base"` group is
created — and the adjustment amount is dropped (the group columns sum to
`2` while the prediction is `5`). -/
theorem base_group_not_created :
    (decompGrouped modelCex groupsCex).2 ≠ [] ∧
    hasKey (calculate_decomposition modelCex groupsCex).groupCols "Base" = false ∧
    sumAt (calculate_decomposition modelCex groupsCex).groupCols 0
      ≠ (calculate_decomposition modelCex groupsCex).predicted 0 := by
  refine ⟨by decide, by decide, ?_⟩
  have h1 : sumAt (calculate_decomposition modelCex groupsCex).groupCols 0 = 2 := by
    simp [calculate_decomposition, decompGrouped, initialContributions,
      initStep, expandWeighted, groupContributions, groupStep, ensureGroup,
      addBaseAdjustment, addEntry, sumAt, minObs, listMin, findVal, hasKey,
      modelCex, groupsCex, List.range_succ]
  have h2 : (calculate_decomposition modelCex groupsCex).predicted 0 = 5 := by
    simp [calculate_decomposition, predictSeries, findVal, hasKey,
      modelCex, groupsCex]
    norm_num
  rw [h1, h2]
  norm_num

/-! ## `curve_transformations` — the ICP curve search

Python's float power `**` (and `numpy.power`) cannot be represented
exactly over `ℚ` for fractional exponents, so the power function is a
parameter `powq : ℚ → ℚ → ℚ` of every definition that uses it; concrete
runs instantiate it with a function exact on the integer exponents the
run exercises. -/

/-- Python 3 `round` to an integer: round-half-to-even. -/
def roundHalfEven (q : ℚ) : ℤ :=
  if q - ⌊q⌋ < 1 / 2 then ⌊q⌋
  else if 1 / 2 < q - ⌊q⌋ then ⌊q⌋ + 1
  else if ⌊q⌋ % 2 = 0 then ⌊q⌋ else ⌊q⌋ + 1

/-- Python `round(x, d)` (`d` may be negative, as in `round(g, -2)`). -/
def pyRound (x : ℚ) (d : ℤ) : ℚ :=
  (roundHalfEven (x * 10 ^ d) : ℚ) / 10 ^ d

/-- Python `int()` on a float: truncation toward zero. -/
def pyInt (x : ℚ) : ℤ := if x < 0 then -⌊-x⌋ else ⌊x⌋

/-- `f"{x:.1f}".rstrip('0').rstrip('.')`: one-decimal formatting with the
trailing zero (and then the bare decimal point) stripped. -/
def fmt1 (x : ℚ) : String :=
  let m := roundHalfEven (x * 10)
  let sign := if m < 0 ∨ (m = 0 ∧ x < 0) then "-" else ""
  let a := m.natAbs
  if a % 10 = 0 then sign ++ toString (a / 10)
  else sign ++ toString (a / 10) ++ "." ++ toString (a % 10)

/-- The transformed-column name
`f"{variable_name}|{transform_type} a{alpha_str}_b{beta_str}_g{gamma_str}"`
built by `test_curve_transform_model`. -/
def transformName (vname ctype : String) (alpha beta gamma : ℚ) : String :=
  let alpha_str := if alpha < 10 then fmt1 alpha else toString (pyInt alpha)
  let beta_str := if beta < 10 then fmt1 beta else toString (pyInt beta)
  let gamma_str := if gamma < 100 then fmt1 gamma else toString (pyInt gamma)
  vname ++ "|" ++ ctype ++ " a" ++ alpha_str ++ "_b" ++ beta_str
    ++ "_g" ++ gamma_str

/-- `curve_transformations.apply_icp_curve`:
`y = (x/γ)^α / ((x/γ)^α + β)`, elementwise. -/
def apply_icp_curve (powq : ℚ → ℚ → ℚ) (x : Series)
    (alpha beta gamma : ℚ) : Series :=
  fun t =>
    let num := powq (x t / gamma) alpha
    num / (num + beta)

/-- Insert into a sorted list, before the first element not below the
inserted one (a stable insertion). -/
def insSorted {α : Type} (le : α → α → Bool) (a : α) : List α → List α
  | [] => [a]
  | b :: bs => if le a b then a :: b :: bs else b :: insSorted le a bs

/-- Stable insertion sort, the embedding of `DataFrame.sort_values` (on
the sort keys used here every row's key is distinct, so any sorting
algorithm produces this order). -/
def insSortBy {α : Type} (le : α → α → Bool) : List α → List α
  | [] => []
  | a :: as => insSorted le a (insSortBy le as)

/-- Python `sorted(list(set(l)))`, step one: drop duplicates (which
element of a duplicate class survives is irrelevant once sorted). -/
def dedupQ : List ℚ → List ℚ
  | [] => []
  | a :: rest => if a ∈ rest then dedupQ rest else a :: dedupQ rest

/-- `curve_transformations.generate_gamma_options`: non-linearly spaced
candidates between 30% of the mean and 60% of the max, rounded to a
magnitude-appropriate precision, de-duplicated and sorted ascending.
(The `min_value` the source computes is unused there and is omitted.) -/
def generate_gamma_options (powq : ℚ → ℚ → ℚ) (nObs : ℕ) (values : Series)
    (n_options : ℕ) : List ℚ :=
  let max_value := maxObs nObs values
  let mean_value := seriesMean nObs values
  let min_gamma := mean_value * (3 / 10)
  let max_gamma := max_value * (6 / 10)
  let gamma_values := (List.range n_options).map (fun i =>
    min_gamma + powq ((i : ℚ) / ((n_options : ℚ) - 1)) (3 / 2)
      * (max_gamma - min_gamma))
  let rounded := gamma_values.map (fun g =>
    if 10000 < g then pyRound g (-3)
    else if 1000 < g then pyRound g (-2)
    else if 100 < g then pyRound g (-1)
    else pyRound g 1)
  insSortBy (fun a b => decide (a ≤ b)) (dedupQ rounded)

/-- The slice of a fitted model that the curve search reads. -/
structure CurveModel where
  n : ℕ
  kpi : String
  features : List String
  data : SeriesMap
  hasResults : Bool

/-- One ranked candidate of the curve search (the row dict built by
`test_curve_transform_model`; the p-value, a monotone transform of `|t|`,
is not modelled, and the t-statistic is carried as its square `tSq`). -/
structure CurveCandidate where
  varName : String
  coefficient : ℚ
  tSq : ℚ
  rSquaredIncrease : ℚ
  alpha : ℚ
  beta : ℚ
  gamma : ℚ
  curveType : String
  switchPoint : Option ℚ
deriving DecidableEq

/-- `curve_transformations.test_curve_transform_model`: fit the base
model and the base model plus the transformed candidate, and record the
new term's statistics; any failure (no fitted base model, unknown
variable, a solver exception, a missing key) yields `None`. -/
def test_curve_transform_model (ols : Ols) (powq : ℚ → ℚ → ℚ)
    (m : CurveModel) (vname : String)
    (curveFun : Series → ℚ → ℚ → ℚ → Series)
    (alpha beta gamma : ℚ) (curveType : String) : Option CurveCandidate :=
  if ¬ m.hasResults then none
  else if ¬ hasKey m.data vname then none
  else
    let tname := transformName vname curveType alpha beta gamma
    let orig := (findVal m.data vname).getD (fun _ => 0)
    let transformed := curveFun orig alpha beta gamma
    let dataCopy := upsert m.data tname transformed
    let y := (findVal dataCopy m.kpi).getD (fun _ => 0)
    let Xcur := ("const", (fun _ => 1 : Series)) ::
      m.features.map (fun f => (f, (findVal dataCopy f).getD (fun _ => 0)))
    let Xtr := Xcur ++ [(tname, transformed)]
    match ols y Xcur m.n, ols y Xtr m.n with
    | some cur, some tr =>
        match findVal tr.params tname, findVal tr.tSq tname with
        | some coef, some tsq =>
            some { varName := tname, coefficient := coef, tSq := tsq,
                   rSquaredIncrease := tr.rsquared - cur.rsquared,
                   alpha := alpha, beta := beta, gamma := gamma,
                   curveType := curveType,
                   switchPoint :=
                     if curveType = "ICP" ∧ 1 < alpha then
                       some (gamma * powq ((alpha - 1) / (alpha + 1)) (1 / alpha))
                     else none }
        | _, _ => none
    | _, _ => none

/-- The `(α, β, γ)` grid of `test_icp_internal`: `alphas = [3, 4]`,
`betas = [3, 4, 5]`, the gamma options innermost. -/
def icpGrid (gammas : List ℚ) : List (ℚ × ℚ × ℚ) :=
  ([3, 4] : List ℚ).flatMap (fun a =>
    ([3, 4, 5] : List ℚ).flatMap (fun b =>
      gammas.map (fun g => (a, b, g))))

/-- The lexicographic `(Alpha, Beta, Gamma)`-ascending comparison used by
`results_df.sort_values(['Alpha', 'Beta', 'Gamma'])`. -/
def lexLE (c d : CurveCandidate) : Bool :=
  if c.alpha < d.alpha then true
  else if d.alpha < c.alpha then false
  else if c.beta < d.beta then true
  else if d.beta < c.beta then false
  else decide (c.gamma ≤ d.gamma)

/-- `curve_transformations.test_icp_internal`: evaluate every grid
combination, keep the successful candidates (in grid order), and present
them sorted by `(Alpha, Beta, Gamma)` ascending.  The empty list plays
the role of the "No valid results to display" outcome. -/
def test_icp_internal (ols : Ols) (powq : ℚ → ℚ → ℚ) (m : CurveModel)
    (vname : String) : List CurveCandidate :=
  if ¬ hasKey m.data vname then []
  else
    let gammas := generate_gamma_options powq m.n
      ((findVal m.data vname).getD (fun _ => 0)) 10
    let results := (icpGrid gammas).filterMap (fun abg =>
      test_curve_transform_model ols powq m vname (apply_icp_curve powq)
        abg.1 abg.2.1 abg.2.2 "ICP")
    insSortBy lexLE results

theorem insSorted_perm {α : Type} (le : α → α → Bool) (a : α) (l : List α) :
    (insSorted le a l).Perm (a :: l) := by
  induction l with
  | nil => exact List.Perm.refl _
  | cons b bs ih =>
      unfold insSorted
      by_cases h : le a b = true
      · rw [if_pos h]
      · rw [if_neg h]
        exact ((ih.cons b).trans (List.Perm.swap a b bs))

theorem insSortBy_perm {α : Type} (le : α → α → Bool) (l : List α) :
    (insSortBy le l).Perm l := by
  induction l with
  | nil => exact List.Perm.refl _
  | cons a as ih =>
      unfold insSortBy
      exact (insSorted_perm le a (insSortBy le as)).trans (ih.cons a)

theorem insSorted_sorted {α : Type} (le : α → α → Bool)
    (htrans : ∀ a b c, le a b = true → le b c = true → le a c = true)
    (htot : ∀ a b, le a b = true ∨ le b a = true) (a : α) (l : List α)
    (hs : List.Sorted (fun x y => le x y = true) l) :
    List.Sorted (fun x y => le x y = true) (insSorted le a l) := by
  induction l with
  | nil => simp [insSorted]
  | cons b bs ih =>
      obtain ⟨hb, hbs⟩ := List.sorted_cons.mp hs
      unfold insSorted
      by_cases h : le a b = true
      · rw [if_pos h]
        rw [List.sorted_cons]
        refine ⟨?_, hs⟩
        intro x hx
        rcases List.mem_cons.mp hx with rfl | hx
        · exact h
        · exact htrans a b x h (hb x hx)
      · rw [if_neg h]
        have hba : le b a = true := (htot a b).resolve_left h
        rw [List.sorted_cons]
        constructor
        · intro x hx
          have hx2 := (insSorted_perm le a bs).mem_iff.mp hx
          rcases List.mem_cons.mp hx2 with rfl | hx2
          · exact hba
          · exact hb x hx2
        · exact ih hbs

theorem insSortBy_sorted {α : Type} (le : α → α → Bool)
    (htrans : ∀ a b c, le a b = true → le b c = true → le a c = true)
    (htot : ∀ a b, le a b = true ∨ le b a = true) (l : List α) :
    List.Sorted (fun x y => le x y = true) (insSortBy le l) := by
  induction l with
  | nil => simp [insSortBy]
  | cons a as ih => exact insSorted_sorted le htrans htot a _ ih

/-- `lexLE` decides the lexicographic `(alpha, beta, gamma)` order. -/
theorem lexLE_iff (c d : CurveCandidate) :
    lexLE c d = true ↔ (c.alpha < d.alpha ∨ (c.alpha = d.alpha ∧
      (c.beta < d.beta ∨ (c.beta = d.beta ∧ c.gamma ≤ d.gamma)))) := by
  unfold lexLE
  split_ifs with h1 h2 h3 h4
  · exact iff_of_true rfl (Or.inl h1)
  · refine iff_of_false (by simp) ?_
    rintro (h | ⟨he, _⟩)
    · exact h1 h
    · rw [he] at h2; exact lt_irrefl _ h2
  · exact iff_of_true rfl
      (Or.inr ⟨le_antisymm (le_of_not_lt h2) (le_of_not_lt h1), Or.inl h3⟩)
  · refine iff_of_false (by simp) ?_
    rintro (h | ⟨_, h5 | ⟨he2, _⟩⟩)
    · exact h1 h
    · exact h3 h5
    · rw [he2] at h4; exact lt_irrefl _ h4
  · have he : c.alpha = d.alpha := le_antisymm (le_of_not_lt h2) (le_of_not_lt h1)
    have he2 : c.beta = d.beta := le_antisymm (le_of_not_lt h4) (le_of_not_lt h3)
    rw [decide_eq_true_iff]
    constructor
    · intro h; exact Or.inr ⟨he, Or.inr ⟨he2, h⟩⟩
    · rintro (h | ⟨_, h5 | ⟨_, h6⟩⟩)
      · exact absurd h h1
      · exact absurd h5 h3
      · exact h6

theorem lexLE_total (c d : CurveCandidate) :
    lexLE c d = true ∨ lexLE d c = true := by
  rw [lexLE_iff, lexLE_iff]
  rcases lt_trichotomy c.alpha d.alpha with h | h | h
  · exact Or.inl (Or.inl h)
  · rcases lt_trichotomy c.beta d.beta with h2 | h2 | h2
    · exact Or.inl (Or.inr ⟨h, Or.inl h2⟩)
    · rcases le_total c.gamma d.gamma with h3 | h3
      · exact Or.inl (Or.inr ⟨h, Or.inr ⟨h2, h3⟩⟩)
      · exact Or.inr (Or.inr ⟨h.symm, Or.inr ⟨h2.symm, h3⟩⟩)
    · exact Or.inr (Or.inr ⟨h.symm, Or.inl h2⟩)
  · exact Or.inr (Or.inl h)

theorem lexLE_trans (a b c : CurveCandidate) (hab : lexLE a b = true)
    (hbc : lexLE b c = true) : lexLE a c = true := by
  rw [lexLE_iff] at hab hbc ⊢
  rcases hab with h1 | ⟨e1, hb1⟩
  · rcases hbc with h2 | ⟨e2, _⟩
    · exact Or.inl (lt_trans h1 h2)
    · exact Or.inl (by rw [← e2]; exact h1)
  · rcases hbc with h2 | ⟨e2, hb2⟩
    · exact Or.inl (by rw [e1]; exact h2)
    · refine Or.inr ⟨e1.trans e2, ?_⟩
      rcases hb1 with h3 | ⟨f1, hg1⟩
      · rcases hb2 with h4 | ⟨f2, _⟩
        · exact Or.inl (lt_trans h3 h4)
        · exact Or.inl (by rw [← f2]; exact h3)
      · rcases hb2 with h4 | ⟨f2, hg2⟩
        · exact Or.inl (by rw [f1]; exact h4)
        · exact Or.inr ⟨f1.trans f2, le_trans hg1 hg2⟩

theorem test_curve_none_of_no_var (ols : Ols) (powq : ℚ → ℚ → ℚ)
    (m : CurveModel) (vname : String)
    (curveFun : Series → ℚ → ℚ → ℚ → Series) (a b g : ℚ) (ct : String)
    (hv : hasKey m.data vname = false) :
    test_curve_transform_model ols powq m vname curveFun a b g ct = none := by
  unfold test_curve_transform_model
  by_cases hr : m.hasResults = true
  · rw [if_neg (by simp [hr]), if_pos (by simp [hv])]
  · rw [if_pos (by simp [Bool.eq_false_iff.mpr hr])]

/-- **C3**: the claim says the curve search "presents the candidates ranked
by |t-statistic| descending".  In the code the rows are sorted by
`sort_values(['Alpha', 'Beta', 'Gamma'])` — grid position, ascending — and
the source comment itself says "sorted by parameters instead of T-stat".
What holds: the output is exactly the successful grid evaluations (a
permutation of the `filterMap` over the grid, so the empty list exactly
when every fit fails) presented in lexicographic `(Alpha, Beta, Gamma)`
ascending order; this also makes the output a deterministic function of
the model and solver.  The t-statistic ranking is refuted separately at a
concrete model. -/
theorem curve_search_ranked (ols : Ols) (powq : ℚ → ℚ → ℚ) (m : CurveModel)
    (vname : String) :
    (test_icp_internal ols powq m vname).Perm
      ((icpGrid (generate_gamma_options powq m.n
          ((findVal m.data vname).getD (fun _ => 0)) 10)).filterMap
        (fun abg => test_curve_transform_model ols powq m vname
          (apply_icp_curve powq) abg.1 abg.2.1 abg.2.2 "ICP")) ∧
    List.Sorted (fun c d => lexLE c d = true)
      (test_icp_internal ols powq m vname) := by
  constructor
  · unfold test_icp_internal
    by_cases hv : hasKey m.data vname = true
    · rw [if_neg (by simp [hv])]
      exact insSortBy_perm _ _
    · have hv2 : hasKey m.data vname = false := Bool.eq_false_iff.mpr hv
      rw [if_pos (by simp [hv2])]
      have hnil : ((icpGrid (generate_gamma_options powq m.n
          ((findVal m.data vname).getD (fun _ => 0)) 10)).filterMap
          (fun abg => test_curve_transform_model ols powq m vname
            (apply_icp_curve powq) abg.1 abg.2.1 abg.2.2 "ICP")) = [] := by
        apply List.filterMap_eq_nil_iff.mpr
        intro abg _
        exact test_curve_none_of_no_var ols powq m vname _ _ _ _ _ hv2
      rw [hnil]
  · unfold test_icp_internal
    by_cases hv : hasKey m.data vname = true
    · rw [if_neg (by simp [hv])]
      exact insSortBy_sorted lexLE lexLE_trans lexLE_total _
    · rw [if_pos (by simp [Bool.eq_false_iff.mpr hv])]
      exact List.sorted_nil

theorem string_data_append (s t : String) : (s ++ t).data = s.data ++ t.data :=
  rfl

/-- The generated transform name extends its variable name, so it never
collides with the short fixed column names of the concrete model below. -/
theorem tname_ne_const (ct : String) (a b g : ℚ) :
    ¬ ("const" = transformName "xv" ct a b g) := by
  intro h
  have hd := congrArg String.data h
  unfold transformName at hd
  simp only [string_data_append, List.append_assoc] at hd
  simp only [List.cons_append, List.nil_append, List.cons.injEq] at hd
  exact absurd hd.1 (by decide)

theorem tname_ne_y (ct : String) (a b g : ℚ) :
    ¬ ("y" = transformName "xv" ct a b g) := by
  intro h
  have hd := congrArg String.data h
  unfold transformName at hd
  simp only [string_data_append, List.append_assoc] at hd
  simp only [List.cons_append, List.nil_append, List.cons.injEq] at hd
  exact absurd hd.1 (by decide)

theorem tname_ne_xv (ct : String) (a b g : ℚ) :
    ¬ ("xv" = transformName "xv" ct a b g) := by
  intro h
  have hd := congrArg String.data h
  unfold transformName at hd
  simp only [string_data_append, List.append_assoc] at hd
  simp only [List.cons_append, List.nil_append, List.cons.injEq] at hd
  exact List.noConfusion hd.2.2

/-- Power-function instance for the concrete curve runs: exact integer
powering at the exponents `3` and `4`, the only ones whose value reaches
the reported statistics on the model below (the `3/2` of the gamma
spacing is multiplied by a zero-width gamma range there, and `1/α` enters
only the switch-point field, which no ranking statement reads). -/
def powQ34 (x e : ℚ) : ℚ := if e = 3 then x ^ 3 else if e = 4 then x ^ 4 else 0

/-- Media series `−5, −10, −15`: its mean `−10` and max `−5` make
`0.3·mean = 0.6·max = −3`, so the generated gamma grid is exactly
`[−3]`. -/
def xsCurve : Series := fun t => if t = 0 then -5 else if t = 1 then -10 else -15

/-- KPI series `0, −16010, 10139`, chosen orthogonal (after centering) to
the ICP transform of `xsCurve` at `(α, β, γ) = (3, 3, −3)`, so that grid
cell's t-statistic is exactly `0`. -/
def ysCurve : Series :=
  fun t => if t = 0 then 0 else if t = 1 then -16010 else 10139

/-- A fitted intercept-only model over three observations of `xv`. -/
def curveModelCex : CurveModel :=
  { n := 3, kpi := "y", features := [],
    data := [("y", ysCurve), ("xv", xsCurve)], hasResults := true }

theorem gammaEvalCex : generate_gamma_options powQ34 3 xsCurve 10 = [-3] := by
  have h30 : pyRound (-3) 1 = -3 := by
    unfold pyRound roundHalfEven
    norm_num
  unfold generate_gamma_options
  norm_num [maxObs, seriesMean, sumRange, listMax, xsCurve, List.range_succ,
    powQ34, h30, max_def, dedupQ, insSortBy, insSorted]

theorem tcEval33 :
    test_curve_transform_model olsSpec powQ34 curveModelCex "xv"
      (apply_icp_curve powQ34) 3 3 (-3) "ICP" =
    some { varName := transformName "xv" "ICP" 3 3 (-3),
           coefficient := 0, tSq := 0, rSquaredIncrease := 0,
           alpha := 3, beta := 3, gamma := -3, curveType := "ICP",
           switchPoint := some 0 } := by
  simp [test_curve_transform_model, curveModelCex, findVal, hasKey,
    upsert, apply_icp_curve, powQ34, xsCurve, ysCurve,
    tname_ne_const, tname_ne_y, tname_ne_xv]
  norm_num [olsSpec, covSum, seriesMean, sumRange, List.range_succ,
    apply_icp_curve, powQ34, xsCurve, ysCurve,
    tname_ne_const, tname_ne_y, tname_ne_xv]
  simp [findVal, tname_ne_const]

theorem tcEval34 :
    test_curve_transform_model olsSpec powQ34 curveModelCex "xv"
      (apply_icp_curve powQ34) 3 4 (-3) "ICP" =
    some { varName := transformName "xv" "ICP" 3 4 (-3),
           coefficient := 1166018423661/1443932354,
           tSq := 102154804171875/501851867481371521,
           rSquaredIncrease := 102154804171875/501954022285543396,
           alpha := 3, beta := 4, gamma := -3, curveType := "ICP",
           switchPoint := some 0 } := by
  simp [test_curve_transform_model, curveModelCex, findVal, hasKey,
    upsert, apply_icp_curve, powQ34, xsCurve, ysCurve,
    tname_ne_const, tname_ne_y, tname_ne_xv]
  norm_num [olsSpec, covSum, seriesMean, sumRange, List.range_succ,
    apply_icp_curve, powQ34, xsCurve, ysCurve,
    tname_ne_const, tname_ne_y, tname_ne_xv]
  simp [findVal, tname_ne_const]

theorem tcEval35 :
    test_curve_transform_model olsSpec powQ34 curveModelCex "xv"
      (apply_icp_curve powQ34) 3 5 (-3) "ICP" =
    some { varName := transformName "xv" "ICP" 3 5 (-3),
           coefficient := 63582246/44347,
           tSq := 24178651875/30808505392681,
           rSquaredIncrease := 24178651875/30832684044556,
           alpha := 3, beta := 5, gamma := -3, curveType := "ICP",
           switchPoint := some 0 } := by
  simp [test_curve_transform_model, curveModelCex, findVal, hasKey,
    upsert, apply_icp_curve, powQ34, xsCurve, ysCurve,
    tname_ne_const, tname_ne_y, tname_ne_xv]
  norm_num [olsSpec, covSum, seriesMean, sumRange, List.range_succ,
    apply_icp_curve, powQ34, xsCurve, ysCurve,
    tname_ne_const, tname_ne_y, tname_ne_xv]
  simp [findVal, tname_ne_const]

theorem tcEval43 :
    test_curve_transform_model olsSpec powQ34 curveModelCex "xv"
      (apply_icp_curve powQ34) 4 3 (-3) "ICP" =
    some { varName := transformName "xv" "ICP" 4 3 (-3),
           coefficient := -28293474028127994/4909627540625,
           tSq := 4930156403980443/1087379093730034681,
           rSquaredIncrease := 4930156403980443/1092309250134015124,
           alpha := 4, beta := 3, gamma := -3, curveType := "ICP",
           switchPoint := some 0 } := by
  simp [test_curve_transform_model, curveModelCex, findVal, hasKey,
    upsert, apply_icp_curve, powQ34, xsCurve, ysCurve,
    tname_ne_const, tname_ne_y, tname_ne_xv]
  norm_num [olsSpec, covSum, seriesMean, sumRange, List.range_succ,
    apply_icp_curve, powQ34, xsCurve, ysCurve,
    tname_ne_const, tname_ne_y, tname_ne_xv]
  simp [findVal, tname_ne_const]

theorem tcEval44 :
    test_curve_transform_model olsSpec powQ34 curveModelCex "xv"
      (apply_icp_curve powQ34) 4 4 (-3) "ICP" =
    some { varName := transformName "xv" "ICP" 4 4 (-3),
           coefficient := -692800394989340781/158750502606250,
           tSq := 67403938501420587/17592249571401734329,
           rSquaredIncrease := 67403938501420587/17659653509903154916,
           alpha := 4, beta := 4, gamma := -3, curveType := "ICP",
           switchPoint := some 0 } := by
  simp [test_curve_transform_model, curveModelCex, findVal, hasKey,
    upsert, apply_icp_curve, powQ34, xsCurve, ysCurve,
    tname_ne_const, tname_ne_y, tname_ne_xv]
  norm_num [olsSpec, covSum, seriesMean, sumRange, List.range_succ,
    apply_icp_curve, powQ34, xsCurve, ysCurve,
    tname_ne_const, tname_ne_y, tname_ne_xv]
  simp [findVal, tname_ne_const]

theorem tcEval45 :
    test_curve_transform_model olsSpec powQ34 curveModelCex "xv"
      (apply_icp_curve powQ34) 4 5 (-3) "ICP" =
    some { varName := transformName "xv" "ICP" 4 5 (-3),
           coefficient := -557557358330763/160410720625,
           tSq := 568274462767683/177875113054409761,
           rSquaredIncrease := 568274462767683/178443387517177444,
           alpha := 4, beta := 5, gamma := -3, curveType := "ICP",
           switchPoint := some 0 } := by
  simp [test_curve_transform_model, curveModelCex, findVal, hasKey,
    upsert, apply_icp_curve, powQ34, xsCurve, ysCurve,
    tname_ne_const, tname_ne_y, tname_ne_xv]
  norm_num [olsSpec, covSum, seriesMean, sumRange, List.range_succ,
    apply_icp_curve, powQ34, xsCurve, ysCurve,
    tname_ne_const, tname_ne_y, tname_ne_xv]
  simp [findVal, tname_ne_const]

theorem curveOutEval :
    test_icp_internal olsSpec powQ34 curveModelCex "xv" =
    [{ varName := transformName "xv" "ICP" 3 3 (-3),
        coefficient := 0,
        tSq := 0,
        rSquaredIncrease := 0,
        alpha := 3, beta := 3, gamma := -3, curveType := "ICP",
        switchPoint := some 0 },
     { varName := transformName "xv" "ICP" 3 4 (-3),
        coefficient := 1166018423661/1443932354,
        tSq := 102154804171875/501851867481371521,
        rSquaredIncrease := 102154804171875/501954022285543396,
        alpha := 3, beta := 4, gamma := -3, curveType := "ICP",
        switchPoint := some 0 },
     { varName := transformName "xv" "ICP" 3 5 (-3),
        coefficient := 63582246/44347,
        tSq := 24178651875/30808505392681,
        rSquaredIncrease := 24178651875/30832684044556,
        alpha := 3, beta := 5, gamma := -3, curveType := "ICP",
        switchPoint := some 0 },
     { varName := transformName "xv" "ICP" 4 3 (-3),
        coefficient := -28293474028127994/4909627540625,
        tSq := 4930156403980443/1087379093730034681,
        rSquaredIncrease := 4930156403980443/1092309250134015124,
        alpha := 4, beta := 3, gamma := -3, curveType := "ICP",
        switchPoint := some 0 },
     { varName := transformName "xv" "ICP" 4 4 (-3),
        coefficient := -692800394989340781/158750502606250,
        tSq := 67403938501420587/17592249571401734329,
        rSquaredIncrease := 67403938501420587/17659653509903154916,
        alpha := 4, beta := 4, gamma := -3, curveType := "ICP",
        switchPoint := some 0 },
     { varName := transformName "xv" "ICP" 4 5 (-3),
        coefficient := -557557358330763/160410720625,
        tSq := 568274462767683/177875113054409761,
        rSquaredIncrease := 568274462767683/178443387517177444,
        alpha := 4, beta := 5, gamma := -3, curveType := "ICP",
        switchPoint := some 0 }] := by
  have hn : curveModelCex.n = 3 := rfl
  have hdata : curveModelCex.data = [("y", ysCurve), ("xv", xsCurve)] := rfl
  simp [test_icp_internal, hn, hdata, findVal, hasKey, gammaEvalCex, icpGrid,
    tcEval33, tcEval34, tcEval35, tcEval43, tcEval44, tcEval45,
    insSortBy, insSorted, lexLE]
  norm_num [insSortBy, insSorted, lexLE]

/-- **C3** (counterexample to the claimed ranking): on `curveModelCex` the
first row of the ICP curve-search output carries t-statistic exactly `0`
while the second row's squared t-statistic is strictly positive, so the
rows are not presented ranked by `|t|` descending (a descending ranking
would put the largest `|t|` first). -/
theorem curve_search_not_tstat_ordered :
    ((test_icp_internal olsSpec powQ34 curveModelCex "xv").map
        (fun c => c.tSq)).getD 0 1 = 0 ∧
    ((test_icp_internal olsSpec powQ34 curveModelCex "xv").map
        (fun c => c.tSq)).getD 0 1 <
      ((test_icp_internal olsSpec powQ34 curveModelCex "xv").map
        (fun c => c.tSq)).getD 1 0 := by
  rw [curveOutEval]
  norm_num [List.getD]
